import Mathlib

/-!
# The sandbox shell: command-execution pipeline

A shallow embedding of `src/custom-shell/sandbox.c`: the tokenizer, the
environment-variable expander, the redirection extractor, the process
launcher, the job table, the resource-limit configuration and the teardown,
followed by the theorems that settle the specification's claims on them.

Conventions of the embedding

* a C string is the list of its characters before the terminating NUL;
* a `Vector` of the course library is a list, a `pid_t` is an `Int`;
* what the operating system answers (the value returned by `fork`, whether
  `open` or `execvp` succeed, which children `waitpid` reports as exited, the
  environment read by `getenv`) is a parameter of the function that asks;
* a loop of the source whose trip count is not fixed in advance is a function
  with a fuel argument that returns `none` when the fuel runs out; totality
  is proved with the fuel the embedding supplies.
-/

namespace Sandbox

/-! ## Data model -/

/-- A C string: its characters up to, not including, the terminating NUL. -/
abbrev CStr := List Char

/-- The `#define BUF_SIZE 4096` of line 29. -/
def BUF_SIZE : Nat := 4096

/-- The pair `struct rlimit` of `<sys/resource.h>`: soft and hard limit, each
an unsigned `rlim_t`. -/
structure rlimit where
  rlim_cur : Nat
  rlim_max : Nat
deriving DecidableEq, Repr

/-- The `ShellLimits` structure of lines 32-39. -/
structure ShellLimits where
  process_limit : rlimit
  data_size_limit : rlimit
  stack_size_limit : rlimit
  fd_limit : rlimit
  file_size_limit : rlimit
  cpu_limit : rlimit
deriving DecidableEq, Repr

/-- The `Shell` structure of lines 41-50. `tokens` holds the text of each
token, `jobs_argv` the owned argument vector of each job, `file` is `none`
for the NULL pointer. -/
structure Shell where
  limits : ShellLimits
  tokens : List CStr
  pids : List Int
  jobs_argv : List (List CStr)
  file : Option CStr
  fout : Bool
  fin : Bool
  append : Bool
  background_process : Bool
deriving DecidableEq, Repr

/-! ## The vector library

`vector.h` is linked from outside the repository (`-lvector`); only its calls
appear in the source. -/

/-- Modelled from the spec: `vector_size` of the absent `vector.h`, the number
of elements held. -/
def vector_size {α : Type} (v : List α) : Nat := v.length

/-- Modelled from the spec: `vector_get` of the absent `vector.h`, the element
at an index, `none` when the index is not valid. -/
def vector_get {α : Type} (v : List α) (i : Nat) : Option α := v[i]?

/-- Modelled from the spec: `vector_push` of the absent `vector.h`, append at
the end. -/
def vector_push {α : Type} (v : List α) (x : α) : List α := v ++ [x]

/-- Modelled from the spec: `vector_set` of the absent `vector.h`, overwrite
the element at an index. -/
def vector_set {α : Type} (v : List α) (i : Nat) (x : α) : List α := v.set i x

/-- Modelled from the spec: `vector_remove` of the absent `vector.h`, remove
the element at an index and close the gap, so that every later element moves
one index down. -/
def vector_remove {α : Type} (v : List α) (i : Nat) : List α := v.eraseIdx i

/-- Modelled from the spec: `vector_new` / `vector_clear` of the absent
`vector.h`, the vector without elements. -/
def vector_new {α : Type} : List α := []

/-! ## Job table: `show_jobs` (lines 356-396) -/

/-- One iteration of the loop of lines 359-377 at index `i`: when the
non-blocking `waitpid` reports the process as exited, the entry at `i` is
removed from both vectors. `exited pid` stands for
`waitpid(pid, NULL, WNOHANG) > 0`. -/
def show_jobs_body (exited : Int → Bool) (sandbox : Shell) (i : Nat) : Shell :=
  match vector_get sandbox.pids i with
  | none => sandbox
  | some pid =>
    if exited pid then
      { sandbox with
        pids := vector_remove sandbox.pids i
        jobs_argv := vector_remove sandbox.jobs_argv i }
    else sandbox

/-- The loop `for(int i = 0; i < vector_size(sandbox->pids); i++)` of line
359, started at index `i`. The bound is read again before every iteration and
`i` is incremented after every iteration, also after a removal. -/
def show_jobs_loop (exited : Int → Bool) : Nat → Nat → Shell → Option Shell
  | 0, i, sandbox =>
    if i < vector_size sandbox.pids then none else some sandbox
  | fuel + 1, i, sandbox =>
    if i < vector_size sandbox.pids then
      show_jobs_loop exited fuel (i + 1) (show_jobs_body exited sandbox i)
    else some sandbox

/-- What lines 380-395 print: the count of line 380 and one line per index of
`pids` with the process id and the argument vector found at that index. -/
structure JobsReport where
  count : Nat
  lines : List (Int × List CStr)
deriving DecidableEq, Repr

/-- The printing part of `show_jobs`, lines 379-395. -/
def print_jobs (sandbox : Shell) : JobsReport :=
  { count := vector_size sandbox.jobs_argv
    lines := (List.range (vector_size sandbox.pids)).filterMap fun i =>
      match vector_get sandbox.pids i, vector_get sandbox.jobs_argv i with
      | some pid, some argv_list => some (pid, argv_list)
      | _, _ => none }

/-- The function `show_jobs` of lines 356-396: the table after the polling
loop and what is printed. -/
def show_jobs (exited : Int → Bool) (sandbox : Shell) : Option (Shell × JobsReport) :=
  (show_jobs_loop exited (vector_size sandbox.pids) 0 sandbox).map
    fun s => (s, print_jobs s)

/-! ## C library string functions used by the source -/

/-- The library function `strstr(haystack, needle)`: the text from the first
occurrence of `needle` on, `none` for the NULL it returns when there is no
occurrence. -/
def strstr : CStr → CStr → Option CStr
  | [], needle => if needle = [] then some [] else none
  | c :: s, needle =>
    if needle.isPrefixOf (c :: s) then some (c :: s) else strstr s needle

/-- The library function `strchr(s, c)`, given as the offset of the first
occurrence of `c` (the difference `strchr(s, c) - s`), `none` for NULL. -/
def strchr : CStr → Char → Option Nat
  | [], _ => none
  | c :: s, ch => if c = ch then some 0 else (strchr s ch).map (· + 1)

/-- The library function `strcmp`: zero exactly for equal strings, otherwise
negative or positive after the first differing character. -/
def strcmp : CStr → CStr → Int
  | [], [] => 0
  | [], _ :: _ => -1
  | _ :: _, [] => 1
  | a :: s, b :: t => if a = b then strcmp s t else if a < b then -1 else 1

/-- The library function `strspn(s, accept)`: the length of the leading part
of `s` made of characters of `accept`. -/
def strspn : CStr → CStr → Nat
  | [], _ => 0
  | c :: s, accept => if c ∈ accept then strspn s accept + 1 else 0

/-- The library function `strcspn(s, reject)`: the length of the leading part
of `s` free of characters of `reject`. -/
def strcspn : CStr → CStr → Nat
  | [], _ => 0
  | c :: s, reject => if c ∈ reject then 0 else strcspn s reject + 1

/-- The library function `strtok(str, delim)`. `olds` is its saved position:
the text that follows the delimiter which ended the previous token. The
result is the token (`none` for NULL) and the new saved position. -/
def strtok (str : Option CStr) (olds : CStr) (delim : CStr) : Option CStr × CStr :=
  let s := match str with
    | some s => s
    | none => olds
  let s := s.drop (strspn s delim)
  if s = [] then (none, [])
  else
    let n := strcspn s delim
    (some (s.take n), (s.drop n).drop 1)

/-! ## Tokenizer: `tokenize_string` (lines 190-201) -/

/-- The loop of lines 197-200: push the current token, ask `strtok` for the
next one, stop at NULL. -/
def tokenize_loop : Nat → Option CStr → CStr → List CStr → Option (List CStr)
  | _, none, _, v => some v
  | 0, some _, _, _ => none
  | fuel + 1, some token, olds, v =>
    let r := strtok none olds [' ']
    tokenize_loop fuel r.1 r.2 (vector_push v token)

/-- The function `tokenize_string` of lines 190-201: `v` is the previous
content of the token vector, the result its new content. -/
def tokenize_string (cmd : CStr) (_v : List CStr) : Option (List CStr) :=
  let v : List CStr := vector_new
  let cmd := cmd.take (strcspn cmd ['\n'])
  let r := strtok (some cmd) [] [' ']
  tokenize_loop cmd.length r.1 r.2 v

/-! ## Variable expander: `expand_environment_vars` (lines 203-241)

The function builds every expanded token in the one local array `new_token`
and stores the address of that array in the vector (`vector_set(v, i,
new_token)`, line 238). The embedding therefore keeps the vector as a list of
pointers and the array as a memory of bytes. -/

/-- The bytes of the local array `char new_token[BUF_SIZE]`, by offset. -/
abbrev Buffer := Nat → Char

/-- Write `data` into the array from offset `off` on; the other bytes keep
their value. -/
def store (buf : Buffer) (off : Nat) (data : List Char) : Buffer :=
  fun j => if j < off then buf j else (data[j - off]?).getD (buf j)

/-- Read the C string that starts at offset `off`: the bytes up to the first
NUL. `none` when no NUL is met within the next `n` bytes. -/
def load_from (buf : Buffer) : Nat → Nat → Option CStr
  | 0, _ => none
  | n + 1, off =>
    if buf off = '\x00' then some []
    else (load_from buf n (off + 1)).map (buf off :: ·)

/-- Read the C string held by the array `new_token`. -/
def load (buf : Buffer) : Option CStr := load_from buf BUF_SIZE 0

/-- An element of the token vector: either a pointer into the command line
`cmd`, identified by the token text it points to, or the address of the local
array `new_token`. -/
inductive TokenPtr
  | cmd (token : CStr)
  | new_token
deriving DecidableEq, Repr

/-- The string a token pointer points to, given the current bytes of
`new_token`. -/
def deref (buf : Buffer) : TokenPtr → Option CStr
  | .cmd token => some token
  | .new_token => load buf

/-- The loop of lines 224-226: copy the leading alphanumeric characters into
`env_var`; the result is the copied name and where `dollar_sign` stops. -/
def copy_name : CStr → CStr × CStr
  | [] => ([], [])
  | c :: s =>
    if c.isAlphanum then ((c :: (copy_name s).1), (copy_name s).2)
    else ([], c :: s)

/-- The body of the loop of lines 213-240 at index `i`. `env` is the process
environment read by `getenv`. The result is `none` when a write leaves its
array: the name does not fit `env_var[20]` with its terminator, or the text
does not fit `new_token[BUF_SIZE]` with its terminator. -/
def expand_body (env : CStr → Option CStr) (st : List TokenPtr × Buffer) (i : Nat) :
    Option (List TokenPtr × Buffer) :=
  match vector_get st.1 i with
  | none => some st
  | some p =>
    match deref st.2 p with
    | none => none
    | some token =>
      match strchr token '$' with
      | none => some st
      | some n =>
        -- strncpy(new_token, token, dollar_sign - token)
        if BUF_SIZE < n then none else
        let buf1 := store st.2 0 (token.take n)
        -- dollar_sign++ and the copy loop into env_var
        let name := (copy_name (token.drop (n + 1))).1
        let rest := (copy_name (token.drop (n + 1))).2
        if 20 ≤ name.length then none else
        match env name with
        | some value =>
          -- strcpy(new_token_ptr, env_var_ptr); new_token_ptr += strlen(env_var_ptr)
          if BUF_SIZE < n + value.length + 1 then none else
          let buf2 := store buf1 n (value ++ ['\x00'])
          -- strcpy(new_token_ptr, dollar_sign)
          if BUF_SIZE < n + value.length + rest.length + 1 then none else
          some (vector_set st.1 i TokenPtr.new_token,
                store buf2 (n + value.length) (rest ++ ['\x00']))
        | none =>
          -- strcpy(new_token_ptr, dollar_sign)
          if BUF_SIZE < n + rest.length + 1 then none else
          some (vector_set st.1 i TokenPtr.new_token, store buf1 n (rest ++ ['\x00']))

/-- The loop `for (int i = 0; i < vector_size(v); i++)` of line 213 over the
indices `is`. -/
def expand_loop (env : CStr → Option CStr) :
    List Nat → List TokenPtr × Buffer → Option (List TokenPtr × Buffer)
  | [], st => some st
  | i :: is, st =>
    match expand_body env st i with
    | none => none
    | some st1 => expand_loop env is st1

/-- The function `expand_environment_vars` of lines 203-241 on the vector
`v` and the initial (indeterminate) bytes of `new_token`: the vector and the
bytes of `new_token` when the function returns. -/
def expand_environment_vars (env : CStr → Option CStr) (new_token : Buffer)
    (v : List TokenPtr) : Option (List TokenPtr × Buffer) :=
  expand_loop env (List.range (vector_size v)) (v, new_token)

/-- Read every element of the vector through its pointer. -/
def read_all (buf : Buffer) : List TokenPtr → Option (List CStr)
  | [] => some []
  | p :: ps =>
    match deref buf p, read_all buf ps with
    | some token, some tokens => some (token :: tokens)
    | _, _ => none

/-- The token texts the caller reads through the vector afterwards
(`vector_get` in `main` and in `execute`), with the bytes of `new_token` as
the function left them. -/
def read_tokens (st : List TokenPtr × Buffer) : Option (List CStr) :=
  read_all st.2 st.1

/-- Tokenized line in, token texts out: `expand_environment_vars` run on the
pointers into `cmd` that `tokenize_string` pushed, then read back. -/
def expand_tokens (env : CStr → Option CStr) (new_token : Buffer)
    (tokens : List CStr) : Option (List CStr) :=
  (expand_environment_vars env new_token (tokens.map TokenPtr.cmd)).bind read_tokens

/-! ## Redirection extractor: `set_redirection` (lines 324-354)

`shell_argv` is the array `char *shell_argv[]` of `execute`: one slot per
token and a final NULL; `none` is the NULL pointer. -/

/-- The body of the loop of lines 334-353 at index `i`. -/
def set_redirection_body (st : Shell × List (Option CStr)) (i : Nat) :
    Shell × List (Option CStr) :=
  match st.2[i]? with
  | some (some token) =>
    if (strstr token ['>', '>']).isSome then
      ({ st.1 with file := some (token.drop 2), fout := true, append := true },
        st.2.set i none)
    else if (strstr token ['>']).isSome then
      ({ st.1 with file := some (token.drop 1), fout := true }, st.2.set i none)
    else if (strstr token ['<']).isSome then
      ({ st.1 with file := some (token.drop 1), fin := true }, st.2.set i none)
    else if strcmp token ['&'] = 0 then
      ({ st.1 with background_process := true }, st.2.set i none)
    else st
  | _ => st

/-- The function `set_redirection` of lines 324-354: the five fields are
reset, then every index below `vector_size(sandbox->tokens)` is visited. -/
def set_redirection (sandbox : Shell) (shell_argv : List (Option CStr)) :
    Shell × List (Option CStr) :=
  (List.range (vector_size sandbox.tokens)).foldl set_redirection_body
    ({ sandbox with
        file := none, fout := false, fin := false, append := false,
        background_process := false },
      shell_argv)

/-! ## Process launcher: `execute` (lines 243-322) -/

/-- The flag combinations `open` is called with in lines 270, 273 and 283. -/
inductive OpenFlags
  | wronly_append_creat
  | wronly_trunc_creat
  | rdonly
deriving DecidableEq, Repr

/-- The resources named in lines 294-299. -/
inductive Resource
  | NPROC
  | DATA
  | STACK
  | NOFILE
  | FSIZE
  | CPU
deriving DecidableEq, Repr

/-- The calls `execute` makes after `fork`, in the order it makes them. -/
inductive Event
  | printf_fork_failed
  | sys_open (path : Option CStr) (flags : OpenFlags)
  | perror_open
  | dup2 (newfd : Nat)
  | close
  | setrlimit (resource : Resource) (lim : rlimit)
  | execvp (file : Option CStr) (argv : List CStr)
  | perror_exec (name : Option CStr)
  | exit (status : Nat)
  | waitpid (pid : Int)
deriving DecidableEq, Repr

/-- The argument vector a program started through `execvp(file, argv)`
receives: the entries of the array up to the first NULL. -/
def argv_seen (shell_argv : List (Option CStr)) : List CStr :=
  (shell_argv.takeWhile Option.isSome).filterMap id

/-- The loop of lines 314-316:
`for(int i = 0; shell_argv[i] != NULL; i++) vector_push(argv_list, strdup(shell_argv[i]))`. -/
def copy_argv : List (Option CStr) → List CStr
  | [] => []
  | none :: _ => []
  | some arg :: rest => arg :: copy_argv rest

/-- Lines 267-291 of the child: the redirection. The flag of the result tells
whether the child goes on (`false` after `exit(1)`). -/
def child_redirect (sandbox : Shell) (open_ok : Bool) : List Event × Bool :=
  if sandbox.fout then
    let flags := if sandbox.append then OpenFlags.wronly_append_creat
      else OpenFlags.wronly_trunc_creat
    if open_ok then ([.sys_open sandbox.file flags, .dup2 1, .close], true)
    else ([.sys_open sandbox.file flags, .perror_open, .exit 1], false)
  else if sandbox.fin then
    if open_ok then ([.sys_open sandbox.file .rdonly, .dup2 0, .close], true)
    else ([.sys_open sandbox.file .rdonly, .perror_open, .exit 1], false)
  else ([], true)

/-- Lines 294-299 of the child: the six limits. -/
def child_limits (limits : ShellLimits) : List Event :=
  [.setrlimit .NPROC limits.process_limit,
   .setrlimit .DATA limits.data_size_limit,
   .setrlimit .STACK limits.stack_size_limit,
   .setrlimit .NOFILE limits.fd_limit,
   .setrlimit .FSIZE limits.file_size_limit,
   .setrlimit .CPU limits.cpu_limit]

/-- Lines 301-306 of the child: `execvp`, and what follows when it returns. -/
def child_exec (shell_argv : List (Option CStr)) (exec_ok : Bool) : List Event :=
  let file := shell_argv.head?.join
  if exec_ok then [.execvp file (argv_seen shell_argv)]
  else [.execvp file (argv_seen shell_argv), .perror_exec file, .exit 1]

/-- The branch `pid == 0` of lines 266-306. -/
def child (sandbox : Shell) (shell_argv : List (Option CStr)) (open_ok exec_ok : Bool) :
    List Event :=
  let r := child_redirect sandbox open_ok
  if r.2 then r.1 ++ child_limits sandbox.limits ++ child_exec shell_argv exec_ok
  else r.1

/-- The outcome of one call of `execute` in the process that made it: the
shell structure, the calls made after `fork`, and whether `execute` returns
to the loop of `main` (it does not in the child). -/
structure ExecResult where
  shell : Shell
  trace : List Event
  returned : Bool
deriving DecidableEq, Repr

/-- The function `execute` of lines 243-322. `pid` is the value returned by
`fork`, `open_ok` and `exec_ok` tell whether `open` and `execvp` succeed in
the child. -/
def execute (sandbox : Shell) (pid : Int) (open_ok exec_ok : Bool) : ExecResult :=
  let shell_argv : List (Option CStr) := sandbox.tokens.map some ++ [none]
  let r := set_redirection sandbox shell_argv
  if pid < 0 then
    { shell := r.1, trace := [.printf_fork_failed], returned := true }
  else if pid = 0 then
    { shell := r.1, trace := child r.1 r.2 open_ok exec_ok, returned := false }
  else if r.1.background_process then
    { shell := { r.1 with
        pids := vector_push r.1.pids pid
        jobs_argv := vector_push r.1.jobs_argv (copy_argv r.2) }
      trace := []
      returned := true }
  else
    { shell := r.1, trace := [.waitpid pid], returned := true }

/-- A step of the shell that touches the job table: a command line handed to
`execute` (its tokens and the answers of the operating system), or the
built-in `jobs` (which children `waitpid` reports as exited). -/
inductive Op
  | execute (tokens : List CStr) (pid : Int) (open_ok exec_ok : Bool)
  | show_jobs (exited : Int → Bool)

/-- The shell structure `main` starts with: three empty vectors (lines
69-71). -/
def initial_shell (limits : ShellLimits) : Shell :=
  { limits := limits, tokens := vector_new, pids := vector_new, jobs_argv := vector_new,
    file := none, fout := false, fin := false, append := false,
    background_process := false }

/-- One step of the loop of `main` (lines 85-109) on the shell structure;
`none` when the process does not come back to the loop. -/
def step (sandbox : Shell) : Op → Option Shell
  | .execute tokens pid open_ok exec_ok =>
    let r := execute { sandbox with tokens := tokens } pid open_ok exec_ok
    if r.returned then some r.shell else none
  | .show_jobs exited => (show_jobs exited sandbox).map Prod.fst

/-- The shell structure after a sequence of steps, `none` when the process
left the loop on the way. -/
def run (sandbox : Shell) : List Op → Option Shell
  | [] => some sandbox
  | op :: ops => (step sandbox op).bind fun s => run s ops

/-- The default limits written by lines 119-135 of `initialize_rlimits`. -/
def default_limits : ShellLimits :=
  { process_limit := { rlim_cur := 256, rlim_max := 256 }
    data_size_limit := { rlim_cur := 1 <<< 30, rlim_max := 1 <<< 30 }
    stack_size_limit := { rlim_cur := 1 <<< 30, rlim_max := 1 <<< 30 }
    fd_limit := { rlim_cur := 256, rlim_max := 256 }
    file_size_limit := { rlim_cur := 1 <<< 30, rlim_max := 1 <<< 30 }
    cpu_limit := { rlim_cur := 1 <<< 30, rlim_max := 1 <<< 30 } }

/-! ## Reading aids

Definitions that only read the structures above, or split the body of a loop
into its effect on the shell structure and its effect on the slot. -/

/-- The job table read as records: entry `i` of `pids` next to entry `i` of
`jobs_argv`. -/
def job_records (sandbox : Shell) : List (Int × List CStr) :=
  List.zip sandbox.pids sandbox.jobs_argv

/-- A record whose process the status check does not report as exited. -/
def alive (exited : Int → Bool) (r : Int × List CStr) : Bool := !exited r.1

/-- The argument vectors of the `execvp` calls of a trace. -/
def exec_argvs (trace : List Event) : List (List CStr) :=
  trace.filterMap fun e =>
    match e with
    | .execvp _ argv => some argv
    | _ => none

/-- The process ids of the `waitpid` calls of a trace. -/
def waited_pids (trace : List Event) : List Int :=
  trace.filterMap fun e =>
    match e with
    | .waitpid pid => some pid
    | _ => none

/-- What the branches of lines 336-352 do to the shell structure for a slot
that holds `token`. -/
def token_effect (s : Shell) (token : CStr) : Shell :=
  if (strstr token ['>', '>']).isSome then
    { s with file := some (token.drop 2), fout := true, append := true }
  else if (strstr token ['>']).isSome then
    { s with file := some (token.drop 1), fout := true }
  else if (strstr token ['<']).isSome then
    { s with file := some (token.drop 1), fin := true }
  else if strcmp token ['&'] = 0 then
    { s with background_process := true }
  else s

/-- What the branches of lines 336-352 leave in a slot that holds `token`. -/
def token_slot (token : CStr) : Option CStr :=
  if (strstr token ['>', '>']).isSome then none
  else if (strstr token ['>']).isSome then none
  else if (strstr token ['<']).isSome then none
  else if strcmp token ['&'] = 0 then none
  else some token

/-! ## The specification's vocabulary -/

/-- A token the specification calls cleared: it contains `>>`, `>` or `<`, or
it is the token `&`. -/
def is_cleared (token : CStr) : Bool :=
  decide ('>' ∈ token) || decide ('<' ∈ token) || decide (token = ['&'])

/-- The compacted argument vector of the specification: the tokens without
the cleared ones, in their order. -/
def compacted (tokens : List CStr) : List CStr :=
  tokens.filter fun t => !is_cleared t

/-- The modes of a redirection directive (specification, section 3). -/
inductive RedirMode
  | truncate
  | append
  | read
deriving DecidableEq, Repr

/-- The redirection token of a mode and a file name: `>f`, `>>f`, `<f`. -/
def redir_token : RedirMode → CStr → CStr
  | .truncate, f => '>' :: f
  | .append, f => '>' :: '>' :: f
  | .read, f => '<' :: f

/-- The jobs a sequence of steps registers, in the order of registration: a
command whose `fork` succeeded in the parent and that has a token `&`, with
the child's process id and the tokens before its first cleared token. -/
def registered : List Op → List (Int × List CStr)
  | [] => []
  | .execute tokens pid _ _ :: ops =>
    (if 0 < pid ∧ ['&'] ∈ tokens then [(pid, tokens.takeWhile fun t => !is_cleared t)]
      else []) ++ registered ops
  | .show_jobs _ :: ops => registered ops

/-- A step made in the process of the shell itself: `fork` did not return 0. -/
def in_parent : Op → Bool
  | .execute _ pid _ _ => decide (pid ≠ 0)
  | .show_jobs _ => true

/-- The maximal runs of non-space characters of a line, left to right: the
pieces between spaces that are not empty. -/
def non_space_runs (line : CStr) : List CStr :=
  (line.splitOn ' ').filter fun w => w ≠ []

/-- The variable name of a token: the maximal run of alphanumeric characters
that follows its first `$`. -/
def var_name (token : CStr) : CStr :=
  ((token.dropWhile fun c => c ≠ '$').drop 1).takeWhile Char.isAlphanum

/-- The expansion of a token that contains `$`, in the words of the
specification: the text before the first `$`, the value of the variable (the
empty string when it is unset), the text after the name. -/
def expansion (env : CStr → Option CStr) (token : CStr) : CStr :=
  (token.takeWhile fun c => c ≠ '$') ++ (env (var_name token)).getD [] ++
    ((token.dropWhile fun c => c ≠ '$').drop 1).dropWhile Char.isAlphanum

/-- The expansion of one token in the words of the specification: a token
without `$` is unchanged. -/
def expand_one (env : CStr → Option CStr) (token : CStr) : CStr :=
  if '$' ∈ token then expansion env token else token

/-- The first bytes of the array are the characters of `l`. -/
def holds (b : Buffer) (l : List Char) : Prop :=
  ∀ j, j < l.length → l[j]? = some (b j)

/-- An environment in which `A` is `1`, `B` is `2`, `HOME` is `/u` and every
other variable is unset. -/
def sample_env : CStr → Option CStr := fun name =>
  if name = ['A'] then some ['1']
  else if name = ['B'] then some ['2']
  else if name = "HOME".toList then some "/u".toList
  else none

/-- The job table after two registrations from the empty table: the command
lines `sleep 5 &` and `sleep 1 &`, whose children got the process ids 101 and
102. -/
def two_jobs : Shell :=
  (execute
    { (execute { initial_shell default_limits with
          tokens := ["sleep".toList, "5".toList, "&".toList] } 101 true true).shell with
      tokens := ["sleep".toList, "1".toList, "&".toList] } 102 true true).shell

/-! ## Resource limits: `initialize_rlimits` (lines 117-172) -/

/-- The library function `isspace` in the C locale. -/
def isspace (c : Char) : Bool :=
  c = ' ' || c = '\t' || c = '\n' || c = '\x0b' || c = '\x0c' || c = '\r'

/-- The value of the leading decimal digits of a string, continued from
`acc`. -/
def digits_value : CStr → Nat → Nat
  | [], acc => acc
  | c :: s, acc =>
    if c.isDigit then digits_value s (acc * 10 + (c.toNat - '0'.toNat)) else acc

/-- The library function `atoi`: leading white space is skipped, an optional
sign is read, then the decimal digits; text without digits gives 0. The
result is `none` when the number does not fit an `int` (32 bits), where the
C standard leaves the behaviour undefined. -/
def atoi (s : CStr) : Option Int :=
  let s := s.dropWhile isspace
  let sign_rest : Bool × CStr :=
    match s with
    | '-' :: t => (true, t)
    | '+' :: t => (false, t)
    | _ => (false, s)
  let n : Int := digits_value sign_rest.2 0
  let v : Int := if sign_rest.1 then -n else n
  if -(2 : Int) ^ 31 ≤ v ∧ v < (2 : Int) ^ 31 then some v else none

/-- The conversion of an `int` to the unsigned 64-bit `rlim_t` made by the
assignments of lines 142-163. -/
def to_rlim (v : Int) : Nat := (v % (2 : Int) ^ 64).toNat

/-- How `initialize_rlimits` ends: with a configuration, with the `exit(1)` of
line 168, or in a call of `atoi` that has no defined result. -/
inductive InitResult
  | ok (limits : ShellLimits)
  | exit_unknown_option
  | atoi_undefined
deriving DecidableEq, Repr

/-- The body of the `switch` of lines 140-170 for one answer of `getopt`: the
option character and `optarg`. The character `?` is the answer of `getopt` for
an option it does not know (`exit(1)`, line 168). -/
def apply_option (limits : ShellLimits) (option : Char) (optarg : CStr) : InitResult :=
  if option = '?' then .exit_unknown_option
  else if option = 'p' ∨ option = 'd' ∨ option = 's' ∨ option = 'n' ∨ option = 'f'
      ∨ option = 't' then
    match atoi optarg with
    | none => .atoi_undefined
    | some v =>
      let lim : rlimit := { rlim_cur := to_rlim v, rlim_max := to_rlim v }
      if option = 'p' then .ok { limits with process_limit := lim }
      else if option = 'd' then .ok { limits with data_size_limit := lim }
      else if option = 's' then .ok { limits with stack_size_limit := lim }
      else if option = 'n' then .ok { limits with fd_limit := lim }
      else if option = 'f' then .ok { limits with file_size_limit := lim }
      else .ok { limits with cpu_limit := lim }
  else .ok limits

/-- The loop `while ((option = getopt(...)) != -1)` of line 139 over the
answers of `getopt`, in the order it gives them. -/
def options_loop (limits : ShellLimits) : List (Char × CStr) → InitResult
  | [] => .ok limits
  | (option, optarg) :: rest =>
    match apply_option limits option optarg with
    | .ok limits1 => options_loop limits1 rest
    | r => r

/-- The function `initialize_rlimits` of lines 117-172: the defaults, then
the options of the command line as `getopt` returns them. -/
def initialize_rlimits (options : List (Char × CStr)) : InitResult :=
  options_loop default_limits options

/-! ## Teardown: `kill_shell` (lines 398-424) -/

/-- The calls `kill_shell` makes, in the order it makes them. -/
inductive TeardownEvent
  | kill_sigterm (pid : Int)
  | vector_free_tokens
  | vector_free_pids
  | free_arg (arg : CStr)
  | vector_free_argv_list (argv_list : List CStr)
  | vector_free_jobs_argv
  | free_limits
  | free_sandbox
deriving DecidableEq, Repr

/-- What the pointer `Shell* sandbox` points to: a live structure, or memory
that `free(sandbox)` has released. -/
inductive ShellRef
  | live (sandbox : Shell)
  | freed
deriving DecidableEq, Repr

/-- The loop of lines 401-404: one `kill(pid, SIGTERM)` per entry of `pids`. -/
def kill_loop (pids : List Int) : List TeardownEvent :=
  pids.map TeardownEvent.kill_sigterm

/-- The loop of lines 411-419: for every job the strings of its argument
vector are freed, then the vector itself. -/
def free_jobs_loop (jobs_argv : List (List CStr)) : List TeardownEvent :=
  jobs_argv.flatMap fun argv_list =>
    argv_list.map TeardownEvent.free_arg ++ [TeardownEvent.vector_free_argv_list argv_list]

/-- The function `kill_shell` of lines 398-424: the calls made and what the
pointer points to afterwards. On released memory the function reads
`sandbox->pids` of a structure that is gone: no defined result (`none`). -/
def kill_shell : ShellRef → Option (List TeardownEvent × ShellRef)
  | .freed => none
  | .live sandbox =>
    some (kill_loop sandbox.pids
        ++ [TeardownEvent.vector_free_tokens, TeardownEvent.vector_free_pids]
        ++ free_jobs_loop sandbox.jobs_argv
        ++ [TeardownEvent.vector_free_jobs_argv, TeardownEvent.free_limits,
            TeardownEvent.free_sandbox],
      ShellRef.freed)

/-! ## Reading aids for limits, traces and teardown -/

/-- The process ids signalled by a teardown trace, in order. -/
def signalled (trace : List TeardownEvent) : List Int :=
  trace.filterMap fun e =>
    match e with
    | .kill_sigterm pid => some pid
    | _ => none

/-- The limits applied by the `setrlimit` calls of a trace, in order. -/
def limits_applied (trace : List Event) : List (Resource × rlimit) :=
  trace.filterMap fun e =>
    match e with
    | .setrlimit resource lim => some (resource, lim)
    | _ => none

/-- The files opened by a trace, with the flags of each `open`. -/
def files_opened (trace : List Event) : List (Option CStr × OpenFlags) :=
  trace.filterMap fun e =>
    match e with
    | .sys_open path flags => some (path, flags)
    | _ => none

/-- An `open` for writing: truncate or append. -/
def is_write : OpenFlags → Bool
  | .wronly_append_creat => true
  | .wronly_trunc_creat => true
  | .rdonly => false

/-- The option character of a limit kind in the option string
`p:d:s:n:f:t:` of line 139. -/
def option_of : Resource → Char
  | .NPROC => 'p'
  | .DATA => 'd'
  | .STACK => 's'
  | .NOFILE => 'n'
  | .FSIZE => 'f'
  | .CPU => 't'

/-- A configuration with the pair of one kind replaced. -/
def with_limit (limits : ShellLimits) (resource : Resource) (lim : rlimit) : ShellLimits :=
  match resource with
  | .NPROC => { limits with process_limit := lim }
  | .DATA => { limits with data_size_limit := lim }
  | .STACK => { limits with stack_size_limit := lim }
  | .NOFILE => { limits with fd_limit := lim }
  | .FSIZE => { limits with file_size_limit := lim }
  | .CPU => { limits with cpu_limit := lim }

/-- The pair of one kind in a configuration. -/
def limit_of (limits : ShellLimits) : Resource → rlimit
  | .NPROC => limits.process_limit
  | .DATA => limits.data_size_limit
  | .STACK => limits.stack_size_limit
  | .NOFILE => limits.fd_limit
  | .FSIZE => limits.file_size_limit
  | .CPU => limits.cpu_limit

/-- The decimal text of a natural number. -/
def decimal (v : Nat) : CStr :=
  if v = 0 then ['0'] else ((Nat.digits 10 v).reverse.map Nat.digitChar)

/-- The strings released by the `free(arg)` calls of a teardown trace, in
order. -/
def freed_args (trace : List TeardownEvent) : List CStr :=
  trace.filterMap fun e =>
    match e with
    | .free_arg arg => some arg
    | _ => none

/-- The call `set_redirection(sandbox, shell_argv)` as `execute` makes it for
a token sequence: the array holds the tokens and a final NULL. -/
def set_redirection_on (sandbox : Shell) (tokens : List CStr) : Shell × List (Option CStr) :=
  set_redirection { sandbox with tokens := tokens } (tokens.map some ++ [none])

/-- The argument vectors released by the `vector_free(argv_list)` calls of a
teardown trace, in order. -/
def freed_argv_lists (trace : List TeardownEvent) : List (List CStr) :=
  trace.filterMap fun e =>
    match e with
    | .vector_free_argv_list argv_list => some argv_list
    | _ => none

/-! ## Lemmas on lists -/

theorem zip_eraseIdx {α β : Type} (a : List α) (b : List β) (i : Nat) :
    List.zip (a.eraseIdx i) (b.eraseIdx i) = (List.zip a b).eraseIdx i := by
  induction a generalizing b i with
  | nil => simp
  | cons x xs ih =>
    cases b with
    | nil => cases i <;> simp
    | cons y ys =>
      cases i with
      | zero => simp
      | succ j => simp [ih]

theorem filter_eraseIdx_of_neg {α : Type} (p : α → Bool) (l : List α) (i : Nat) (x : α)
    (hx : l[i]? = some x) (hp : p x = false) :
    (l.eraseIdx i).filter p = l.filter p := by
  induction l generalizing i with
  | nil => simp
  | cons y ys ih =>
    cases i with
    | zero =>
      simp at hx
      subst hx
      simp [hp]
    | succ j =>
      simp at hx
      simp [List.filter_cons, ih j hx]

theorem show_jobs_body_spec (exited : Int → Bool) (sb : Shell) (i : Nat)
    (hlen : sb.pids.length = sb.jobs_argv.length) :
    (show_jobs_body exited sb i).pids.length = (show_jobs_body exited sb i).jobs_argv.length ∧
    (show_jobs_body exited sb i).pids.length ≤ sb.pids.length ∧
    (job_records (show_jobs_body exited sb i)).filter (alive exited)
      = (job_records sb).filter (alive exited) ∧
    (job_records (show_jobs_body exited sb i)).Sublist (job_records sb) := by
  unfold show_jobs_body vector_get
  cases hget : sb.pids[i]? with
  | none => exact ⟨hlen, le_refl _, rfl, List.Sublist.refl _⟩
  | some pid =>
    have hi : i < sb.pids.length := by
      rcases List.getElem?_eq_some_iff.mp hget with ⟨h, _⟩
      exact h
    by_cases hex : exited pid = true
    · simp only [hex, if_true, vector_remove, job_records]
      have hj : i < sb.jobs_argv.length := hlen ▸ hi
      refine ⟨?_, ?_, ?_, ?_⟩
      · rw [List.length_eraseIdx, List.length_eraseIdx]
        simp [hi, hj, hlen]
      · rw [List.length_eraseIdx]
        split <;> omega
      · rw [zip_eraseIdx]
        have hz : (List.zip sb.pids sb.jobs_argv)[i]? = some (pid, sb.jobs_argv[i]) := by
          rw [List.getElem?_zip_eq_some]
          exact ⟨hget, List.getElem?_eq_getElem hj⟩
        exact filter_eraseIdx_of_neg _ _ i _ hz (by simp [alive, hex])
      · rw [zip_eraseIdx]
        exact List.eraseIdx_sublist _ _
    · simp [hex, hlen]

theorem show_jobs_loop_spec (exited : Int → Bool) (fuel : Nat) :
    ∀ (i : Nat) (sb : Shell), sb.pids.length = sb.jobs_argv.length →
      sb.pids.length ≤ i + fuel →
      ∃ s, show_jobs_loop exited fuel i sb = some s ∧
        s.pids.length = s.jobs_argv.length ∧
        (job_records s).filter (alive exited) = (job_records sb).filter (alive exited) ∧
        (job_records s).Sublist (job_records sb) := by
  induction fuel with
  | zero =>
    intro i sb hlen hfuel
    refine ⟨sb, ?_, hlen, rfl, List.Sublist.refl _⟩
    simp only [show_jobs_loop, vector_size]
    rw [if_neg (by omega)]
  | succ f ih =>
    intro i sb hlen hfuel
    simp only [show_jobs_loop, vector_size]
    by_cases hi : i < sb.pids.length
    · rw [if_pos hi]
      obtain ⟨h1, h2, h3, h4⟩ := show_jobs_body_spec exited sb i hlen
      obtain ⟨s, hs, hs1, hs2, hs3⟩ := ih (i + 1) (show_jobs_body exited sb i) h1 (by omega)
      exact ⟨s, hs, hs1, hs2.trans h3, hs3.trans h4⟩
    · rw [if_neg hi]
      exact ⟨sb, rfl, hlen, rfl, List.Sublist.refl _⟩

/-! ## Lemmas on `set_redirection` -/

theorem set_redirection_body_at (s : Shell) (pre rest : List (Option CStr)) (t : CStr) :
    set_redirection_body (s, pre ++ some t :: rest) pre.length
      = (token_effect s t, pre ++ token_slot t :: rest) := by
  unfold set_redirection_body token_effect token_slot
  simp only [List.getElem?_append_right (le_refl _), Nat.sub_self, List.getElem?_cons_zero]
  split_ifs <;> simp [List.set_append]

theorem set_redirection_fold (ts : List CStr) :
    ∀ (s : Shell) (pre : List (Option CStr)) (tail : List (Option CStr)),
      (List.range' pre.length ts.length).foldl set_redirection_body
          (s, pre ++ ts.map some ++ tail)
        = (ts.foldl token_effect s, pre ++ ts.map token_slot ++ tail) := by
  induction ts with
  | nil => intro s pre tail; simp
  | cons t ts ih =>
    intro s pre tail
    simp only [List.length_cons, List.range'_succ, List.foldl_cons, List.map_cons,
      List.append_assoc, List.cons_append]
    rw [set_redirection_body_at]
    have := ih (token_effect s t) (pre ++ [token_slot t]) tail
    simp only [List.length_append, List.length_singleton, List.append_assoc,
      List.singleton_append, List.cons_append] at this
    exact this

theorem set_redirection_eq (sb : Shell) :
    set_redirection sb (sb.tokens.map some ++ [none])
      = (sb.tokens.foldl token_effect
            { sb with file := none, fout := false, fin := false, append := false,
                      background_process := false },
          sb.tokens.map token_slot ++ [none]) := by
  unfold set_redirection vector_size
  rw [List.range_eq_range']
  have := set_redirection_fold sb.tokens
    { sb with file := none, fout := false, fin := false, append := false,
              background_process := false } [] [none]
  simpa using this

theorem strstr_singleton_isSome (c : Char) (t : CStr) :
    (strstr t [c]).isSome = true ↔ c ∈ t := by
  induction t with
  | nil => simp [strstr]
  | cons a s ih =>
    unfold strstr
    by_cases h : a = c
    · subst h; simp [List.isPrefixOf]
    · have h' : ¬ c = a := fun e => h e.symm
      simp [List.isPrefixOf, h, h', ih]

theorem strstr_none_of_not_mem (c : Char) (n : CStr) (t : CStr) (h : c ∉ t) :
    strstr t (c :: n) = none := by
  induction t with
  | nil => simp [strstr]
  | cons a s ih =>
    have h1 : ¬ c = a := fun e => h (by simp [e])
    have h2 : c ∉ s := fun e => h (by simp [e])
    unfold strstr
    simp [List.isPrefixOf, h1, ih h2]

theorem strcmp_eq_zero (a b : CStr) : strcmp a b = 0 ↔ a = b := by
  induction a generalizing b with
  | nil => cases b <;> simp [strcmp]
  | cons x s ih =>
    cases b with
    | nil => simp [strcmp]
    | cons y t =>
      unfold strcmp
      by_cases h : x = y
      · simp [h, ih]
      · simp only [h, if_false, List.cons.injEq, false_and, iff_false]
        split_ifs <;> simp

theorem token_slot_eq (t : CStr) : token_slot t = if is_cleared t then none else some t := by
  unfold token_slot is_cleared
  by_cases h1 : '>' ∈ t
  · have := (strstr_singleton_isSome '>' t).mpr h1
    simp [h1, this]
  · have hn := strstr_none_of_not_mem '>' ['>'] t h1
    have hn1 := strstr_none_of_not_mem '>' [] t h1
    by_cases h2 : '<' ∈ t
    · have := (strstr_singleton_isSome '<' t).mpr h2
      simp [hn, hn1, h1, h2, this]
    · have hn2 := strstr_none_of_not_mem '<' [] t h2
      simp [hn, hn1, hn2, h1, h2, strcmp_eq_zero]

theorem argv_seen_slots (ts : List CStr) (tail : List (Option CStr)) :
    argv_seen (ts.map token_slot ++ none :: tail) = ts.takeWhile fun t => !is_cleared t := by
  induction ts with
  | nil => simp [argv_seen]
  | cons t ts ih =>
    unfold argv_seen at ih ⊢
    by_cases h : is_cleared t = true
    · simp [token_slot_eq, h]
    · simp only [Bool.not_eq_true] at h
      simp [token_slot_eq, h, List.takeWhile_cons]
      simpa using ih

theorem copy_argv_eq_argv_seen (a : List (Option CStr)) : copy_argv a = argv_seen a := by
  induction a with
  | nil => simp [copy_argv, argv_seen]
  | cons x xs ih =>
    cases x with
    | none => simp [copy_argv, argv_seen]
    | some v =>
      unfold argv_seen at ih ⊢
      simp [copy_argv, List.takeWhile_cons, ih]

theorem exec_argvs_child (sb : Shell) (a : List (Option CStr)) (exec_ok : Bool) :
    exec_argvs (child sb a true exec_ok) = [argv_seen a] := by
  unfold child child_redirect child_limits child_exec exec_argvs
  cases sb.fout <;> cases sb.fin <;> cases exec_ok <;> simp

theorem token_effect_plain (s : Shell) (t : CStr) (h : is_cleared t = false) :
    token_effect s t = s := by
  have hs := token_slot_eq t
  rw [h] at hs
  simp only [Bool.false_eq_true, if_false] at hs
  unfold token_slot at hs
  unfold token_effect
  split_ifs at hs ⊢
  rfl

theorem foldl_token_effect_plain (ws : List CStr) (s : Shell)
    (h : ∀ w ∈ ws, is_cleared w = false) : ws.foldl token_effect s = s := by
  induction ws generalizing s with
  | nil => rfl
  | cons w ws ih =>
    simp only [List.foldl_cons]
    rw [token_effect_plain s w (h w (by simp))]
    exact ih s fun x hx => h x (by simp [hx])

theorem strstr_gtgt_none (f : CStr) (h : '>' ∉ f) : strstr ('>' :: f) ['>', '>'] = none := by
  unfold strstr
  have h2 := strstr_none_of_not_mem '>' ['>'] f h
  cases f with
  | nil => simp [List.isPrefixOf, strstr]
  | cons c f' =>
    have hc : ¬ '>' = c := fun e => h (List.mem_cons.mpr (Or.inl e))
    simp [List.isPrefixOf, hc, h2]

theorem token_effect_redir (s : Shell) (mode : RedirMode) (f : CStr)
    (hgt : '>' ∉ f) :
    token_effect s (redir_token mode f) =
      match mode with
      | .truncate => { s with file := some f, fout := true }
      | .append => { s with file := some f, fout := true, append := true }
      | .read => { s with file := some f, fin := true } := by
  cases mode with
  | truncate =>
    have h1 := strstr_gtgt_none f hgt
    have h2 := (strstr_singleton_isSome '>' ('>' :: f)).mpr (by simp)
    simp [token_effect, redir_token, h1, h2]
  | append =>
    have h1 : (strstr ('>' :: '>' :: f) ['>', '>']).isSome = true := by
      simp [strstr, List.isPrefixOf]
    simp [token_effect, redir_token, h1]
  | read =>
    have hm : '>' ∉ ('<' :: f) := by simp [hgt]
    have h1 := strstr_none_of_not_mem '>' ['>'] _ hm
    have h2 := strstr_none_of_not_mem '>' [] _ hm
    have h3 := (strstr_singleton_isSome '<' ('<' :: f)).mpr (by simp)
    simp [token_effect, redir_token, h1, h2, h3]

theorem token_effect_amp (s : Shell) :
    token_effect s ['&'] = { s with background_process := true } := by
  simp [token_effect, strstr, List.isPrefixOf, strcmp]

theorem is_cleared_redir (mode : RedirMode) (f : CStr) : is_cleared (redir_token mode f) = true := by
  cases mode <;> simp [is_cleared, redir_token]

theorem filterMap_range_zip {α β : Type} (a : List α) (b : List β) (h : a.length = b.length) :
    ((List.range a.length).filterMap fun i =>
      match a[i]?, b[i]? with
      | some x, some y => some (x, y)
      | _, _ => none) = List.zip a b := by
  induction a generalizing b with
  | nil => simp
  | cons x xs ih =>
    cases b with
    | nil => simp at h
    | cons y ys =>
      simp only [List.length_cons, Nat.succ.injEq] at h
      simp only [List.length_cons, List.range_succ_eq_map, List.filterMap_cons,
        List.getElem?_cons_zero, List.filterMap_map, List.zip_cons_cons]
      congr 1
      have := ih ys h
      rw [← this]
      congr 1
      funext i
      simp

theorem token_effect_frame (s : Shell) (t : CStr) :
    (token_effect s t).pids = s.pids ∧ (token_effect s t).jobs_argv = s.jobs_argv ∧
    (token_effect s t).limits = s.limits ∧ (token_effect s t).tokens = s.tokens := by
  unfold token_effect
  split_ifs <;> exact ⟨rfl, rfl, rfl, rfl⟩

theorem foldl_token_effect_frame (ts : List CStr) (s : Shell) :
    (ts.foldl token_effect s).pids = s.pids ∧
    (ts.foldl token_effect s).jobs_argv = s.jobs_argv ∧
    (ts.foldl token_effect s).limits = s.limits ∧
    (ts.foldl token_effect s).tokens = s.tokens := by
  induction ts generalizing s with
  | nil => exact ⟨rfl, rfl, rfl, rfl⟩
  | cons t ts ih =>
    obtain ⟨h1, h2, h3, h4⟩ := token_effect_frame s t
    obtain ⟨i1, i2, i3, i4⟩ := ih (token_effect s t)
    exact ⟨i1.trans h1, i2.trans h2, i3.trans h3, i4.trans h4⟩

theorem token_effect_background (s : Shell) (t : CStr) :
    (token_effect s t).background_process = (s.background_process || decide (t = ['&'])) := by
  by_cases h : is_cleared t = true
  · by_cases ha : t = ['&']
    · subst ha
      rw [token_effect_amp]
      simp
    · have hs := token_slot_eq t
      rw [h] at hs
      simp only [if_true] at hs
      unfold token_slot at hs
      unfold token_effect
      have hc : ¬ strcmp t ['&'] = 0 := fun e => ha ((strcmp_eq_zero _ _).mp e)
      split_ifs at hs ⊢ <;> simp [ha]
  · simp only [Bool.not_eq_true] at h
    rw [token_effect_plain s t h]
    have : t ≠ ['&'] := by
      intro e
      subst e
      simp [is_cleared] at h
    simp [this]

theorem foldl_token_effect_background (ts : List CStr) (s : Shell) :
    (ts.foldl token_effect s).background_process
      = (s.background_process || decide (['&'] ∈ ts)) := by
  induction ts generalizing s with
  | nil => simp
  | cons t ts ih =>
    simp only [List.foldl_cons]
    rw [ih, token_effect_background]
    by_cases h : t = ['&']
    · simp [h]
    · have h' : ¬ ['&'] = t := fun e => h e.symm
      simp [h, h']

theorem set_redirection_result (sb : Shell) :
    (set_redirection sb (sb.tokens.map some ++ [none])).1.pids = sb.pids ∧
    (set_redirection sb (sb.tokens.map some ++ [none])).1.jobs_argv = sb.jobs_argv ∧
    (set_redirection sb (sb.tokens.map some ++ [none])).1.background_process
      = decide (['&'] ∈ sb.tokens) ∧
    copy_argv (set_redirection sb (sb.tokens.map some ++ [none])).2
      = sb.tokens.takeWhile fun t => !is_cleared t := by
  rw [set_redirection_eq]
  obtain ⟨h1, h2, _, _⟩ := foldl_token_effect_frame sb.tokens
    { sb with file := none, fout := false, fin := false, append := false,
              background_process := false }
  refine ⟨h1, h2, ?_, ?_⟩
  · rw [foldl_token_effect_background]
    simp
  · rw [copy_argv_eq_argv_seen, argv_seen_slots]

theorem execute_in_parent (sb : Shell) (pid : Int) (open_ok exec_ok : Bool) (hpid : pid ≠ 0)
    (hlen : sb.pids.length = sb.jobs_argv.length) :
    (execute sb pid open_ok exec_ok).returned = true ∧
    (execute sb pid open_ok exec_ok).shell.pids.length
      = (execute sb pid open_ok exec_ok).shell.jobs_argv.length ∧
    job_records (execute sb pid open_ok exec_ok).shell
      = job_records sb ++
        (if 0 < pid ∧ ['&'] ∈ sb.tokens then
          [(pid, sb.tokens.takeWhile fun t => !is_cleared t)] else []) := by
  obtain ⟨h1, h2, h3, h4⟩ := set_redirection_result sb
  unfold execute
  simp only [hpid, if_false]
  by_cases hneg : pid < 0
  · have : ¬ 0 < pid := by omega
    simp [hneg, this, job_records, h1, h2, hlen]
  · have hpos : 0 < pid := by omega
    simp only [hneg, if_false, h3, decide_eq_true_eq]
    by_cases hbg : ['&'] ∈ sb.tokens
    · simp only [hbg, if_true, hpos, and_self, job_records, vector_push, h1, h2, h4]
      refine ⟨trivial, by simp [hlen], ?_⟩
      rw [List.zip_append hlen]
      simp
    · simp [hbg, job_records, h1, h2, hlen]

theorem run_invariant (ops : List Op) :
    ∀ s0 : Shell, s0.pids.length = s0.jobs_argv.length →
      (∀ op ∈ ops, in_parent op = true) →
      ∃ s, run s0 ops = some s ∧ s.pids.length = s.jobs_argv.length ∧
        (job_records s).Sublist (job_records s0 ++ registered ops) := by
  induction ops with
  | nil =>
    intro s0 hlen _
    exact ⟨s0, rfl, hlen, by simp [registered]⟩
  | cons op ops ih =>
    intro s0 hlen hpar
    have hrest : ∀ o ∈ ops, in_parent o = true := fun o ho => hpar o (by simp [ho])
    cases op with
    | execute tokens pid open_ok exec_ok =>
      have hpid : pid ≠ 0 := by
        have := hpar (Op.execute tokens pid open_ok exec_ok) (by simp)
        simpa [in_parent] using this
      obtain ⟨e1, e2, e3⟩ :=
        execute_in_parent { s0 with tokens := tokens } pid open_ok exec_ok hpid hlen
      obtain ⟨s, hs, hs1, hs2⟩ := ih _ e2 hrest
      refine ⟨s, ?_, hs1, ?_⟩
      · simp only [run, step, e1, if_true, Option.some_bind]
        exact hs
      · rw [e3] at hs2
        simpa [registered, job_records] using hs2
    | show_jobs exited =>
      obtain ⟨s1, h1, h2, _, h4⟩ :=
        show_jobs_loop_spec exited s0.pids.length 0 s0 hlen (by omega)
      obtain ⟨s, hs, hs1, hs2⟩ := ih s1 h2 hrest
      refine ⟨s, ?_, hs1, ?_⟩
      · simp only [run, step, show_jobs, vector_size, h1, Option.map_some', Option.some_bind]
        exact hs
      · simp only [registered]
        exact hs2.trans (List.Sublist.append_right h4 _)

theorem print_jobs_lines (s : Shell) (h : s.pids.length = s.jobs_argv.length) :
    (print_jobs s).lines = job_records s := by
  unfold print_jobs job_records vector_size vector_get
  simp only
  rw [← filterMap_range_zip s.pids s.jobs_argv h]
  congr 1
  funext i
  cases s.pids[i]? <;> cases s.jobs_argv[i]? <;> rfl

theorem exec_argvs_execute_child (sandbox : Shell) (exec_ok : Bool) :
    exec_argvs (execute sandbox 0 true exec_ok).trace
      = [sandbox.tokens.takeWhile fun t => !is_cleared t] := by
  unfold execute
  simp only [lt_irrefl, if_false, if_true]
  rw [exec_argvs_child, set_redirection_eq, argv_seen_slots]
theorem non_space_runs_nil : non_space_runs [] = [] := by
  simp [non_space_runs]

theorem non_space_runs_space (s : CStr) : non_space_runs (' ' :: s) = non_space_runs s := by
  simp [non_space_runs, List.splitOn]

theorem non_space_runs_last (t : CStr) (ht : t ≠ []) (hns : ' ' ∉ t) :
    non_space_runs t = [t] := by
  unfold non_space_runs List.splitOn
  rw [List.splitOnP_eq_single]
  · simp [ht]
  · intro x hx hp
    simp only [beq_iff_eq] at hp
    exact hns (hp ▸ hx)

theorem non_space_runs_word (t r : CStr) (ht : t ≠ []) (hns : ' ' ∉ t) :
    non_space_runs (t ++ ' ' :: r) = t :: non_space_runs r := by
  unfold non_space_runs List.splitOn
  rw [List.splitOnP_first]
  · simp [ht]
  · intro x hx hp
    simp only [beq_iff_eq] at hp
    exact hns (hp ▸ hx)
  · simp

theorem strcspn_space (s : CStr) :
    ' ' ∉ s.take (strcspn s [' ']) ∧
    (s.drop (strcspn s [' ']) = [] ∨ ∃ r, s.drop (strcspn s [' ']) = ' ' :: r) := by
  induction s with
  | nil => simp [strcspn]
  | cons c s ih =>
    by_cases h : c = ' '
    · subst h
      simp [strcspn]
    · have h' : ¬ ' ' = c := fun e => h e.symm
      obtain ⟨i1, i2⟩ := ih
      have hc : strcspn (c :: s) [' '] = strcspn s [' '] + 1 := by simp [strcspn, h]
      rw [hc]
      simp only [List.take_succ_cons, List.mem_cons, h', false_or, List.drop_succ_cons]
      exact ⟨i1, i2⟩

theorem take_strcspn (s : CStr) (c : Char) :
    s.take (strcspn s [c]) = s.takeWhile fun x => x ≠ c := by
  induction s with
  | nil => simp [strcspn]
  | cons a s ih =>
    by_cases h : a = c
    · simp [strcspn, h]
    · simp [strcspn, h, List.takeWhile_cons, ih]

theorem strtok_space (s : CStr) : ∀ olds : CStr,
    ((strtok (some s) olds [' ']).1 = none ∧ non_space_runs s = []) ∨
    ∃ t rest, strtok (some s) olds [' '] = (some t, rest) ∧
      non_space_runs s = t :: non_space_runs rest ∧ rest.length < s.length ∧
      t ≠ [] ∧ ' ' ∉ t := by
  induction s with
  | nil =>
    intro olds
    left
    simp [strtok, strspn, non_space_runs_nil]
  | cons c s ih =>
    intro olds
    by_cases h : c = ' '
    · subst h
      have hstep : strtok (some (' ' :: s)) olds [' '] = strtok (some s) olds [' '] := by
        simp [strtok, strspn]
      rw [hstep, non_space_runs_space]
      rcases ih olds with h1 | ⟨t, rest, h1, h2, h3, h4⟩
      · exact Or.inl h1
      · exact Or.inr ⟨t, rest, h1, h2, by simp; omega, h4⟩
    · right
      obtain ⟨n1, n2⟩ := strcspn_space s
      have hstep : strtok (some (c :: s)) olds [' ']
          = (some (c :: s.take (strcspn s [' '])), (s.drop (strcspn s [' '])).drop 1) := by
        simp [strtok, strspn, strcspn, h]
      have hsplit : c :: s = (c :: s.take (strcspn s [' '])) ++ s.drop (strcspn s [' ']) := by
        simp
      have hns : ' ' ∉ c :: s.take (strcspn s [' ']) := by
        intro hm
        rcases List.mem_cons.mp hm with e | e
        · exact h e.symm
        · exact n1 e
      refine ⟨_, _, hstep, ?_, ?_, by simp, hns⟩
      · rcases n2 with e | ⟨r, e⟩
        · rw [e] at hsplit
          simp only [List.append_nil] at hsplit
          rw [e, List.drop_nil, non_space_runs_nil, ← hsplit]
          exact non_space_runs_last _ (by simp) (hsplit ▸ hns)
        · rw [e, List.drop_one, List.tail_cons]
          conv_lhs => rw [hsplit, e]
          exact non_space_runs_word _ _ (by simp) hns
      · have : ((s.drop (strcspn s [' '])).drop 1).length ≤ s.length := by
          simp only [List.length_drop]
          omega
        simp only [List.length_cons]
        omega

theorem tokenize_loop_spec (fuel : Nat) : ∀ (s olds acc : List _),
    s.length ≤ fuel →
    tokenize_loop fuel (strtok (some s) olds [' ']).1 (strtok (some s) olds [' ']).2 acc
      = some (acc ++ non_space_runs s) := by
  induction fuel with
  | zero =>
    intro s olds acc hlen
    have hs : s = [] := List.length_eq_zero.mp (Nat.le_zero.mp hlen)
    subst hs
    simp [strtok, strspn, tokenize_loop, non_space_runs_nil]
  | succ f ih =>
    intro s olds acc hlen
    rcases strtok_space s olds with ⟨h1, h2⟩ | ⟨t, rest, h1, h2, h3, _, _⟩
    · rw [h1, h2]
      simp [tokenize_loop]
    · rw [h1, h2]
      simp only [tokenize_loop, vector_push]
      have hnone : strtok none rest [' '] = strtok (some rest) rest [' '] := rfl
      rw [hnone, ih rest rest (acc ++ [t]) (by omega)]
      simp

theorem splitOn_no_sep (s : CStr) : ∀ t ∈ s.splitOn ' ', ' ' ∉ t := by
  induction s with
  | nil => simp
  | cons c s ih =>
    intro t ht
    unfold List.splitOn at ht ih
    rw [List.splitOnP_cons] at ht
    by_cases h : c = ' '
    · simp only [h, beq_self_eq_true, if_true, List.mem_cons] at ht
      rcases ht with e | e
      · simp [e]
      · exact ih t e
    · have hb : (c == ' ') = false := by simp [h]
      simp only [hb, Bool.false_eq_true, if_false] at ht
      cases hsp : List.splitOnP (fun x => x == ' ') s with
      | nil => exact absurd hsp (List.splitOnP_ne_nil _ _)
      | cons w ws =>
        rw [hsp] at ht ih
        simp only [List.modifyHead_cons, List.mem_cons] at ht
        rcases ht with e | e
        · subst e
          have hw := ih w (by simp)
          intro hm
          rcases List.mem_cons.mp hm with e1 | e1
          · exact h e1.symm
          · exact hw e1
        · exact ih t (by simp [e])

theorem non_space_runs_word_ok (s : CStr) : ∀ t ∈ non_space_runs s, t ≠ [] ∧ ' ' ∉ t := by
  intro t ht
  unfold non_space_runs at ht
  rw [List.mem_filter] at ht
  exact ⟨by simpa using ht.2, splitOn_no_sep s t ht.1⟩

theorem tokenize_string_eq (cmd : CStr) (v : List CStr) :
    tokenize_string cmd v = some (non_space_runs (cmd.takeWhile fun c => c ≠ '\n')) := by
  unfold tokenize_string
  simp only [vector_new]
  rw [tokenize_loop_spec _ _ _ _ (le_refl _), take_strcspn]
  simp

/-! ## Lemmas on the variable expander -/

theorem strchr_of_mem (token : CStr) (c : Char) (h : c ∈ token) :
    strchr token c = some (token.takeWhile fun x => x ≠ c).length := by
  induction token with
  | nil => simp at h
  | cons a s ih =>
    by_cases e : a = c
    · simp [strchr, e]
    · have hs : c ∈ s := by
        rcases List.mem_cons.mp h with h1 | h1
        · exact absurd h1.symm e
        · exact h1
      simp [strchr, e, ih hs, List.takeWhile_cons]

theorem strchr_of_not_mem (token : CStr) (c : Char) (h : c ∉ token) :
    strchr token c = none := by
  induction token with
  | nil => rfl
  | cons a s ih =>
    have e : ¬ a = c := fun e => h (by simp [e])
    have hs : c ∉ s := fun hm => h (by simp [hm])
    simp [strchr, e, ih hs]

theorem copy_name_eq (s : CStr) :
    copy_name s = (s.takeWhile Char.isAlphanum, s.dropWhile Char.isAlphanum) := by
  induction s with
  | nil => rfl
  | cons c s ih =>
    by_cases h : c.isAlphanum = true
    · simp [copy_name, h, ih, List.takeWhile_cons, List.dropWhile_cons]
    · simp [copy_name, h, List.takeWhile_cons, List.dropWhile_cons]

theorem take_takeWhile_length {α : Type} (p : α → Bool) (l : List α) :
    l.take (l.takeWhile p).length = l.takeWhile p := by
  induction l with
  | nil => rfl
  | cons a l ih =>
    by_cases h : p a = true
    · simp [List.takeWhile_cons, h, ih]
    · simp [List.takeWhile_cons, h]

theorem drop_takeWhile_length {α : Type} (p : α → Bool) (l : List α) :
    l.drop (l.takeWhile p).length = l.dropWhile p := by
  induction l with
  | nil => rfl
  | cons a l ih =>
    by_cases h : p a = true
    · simp [List.takeWhile_cons, List.dropWhile_cons, h, ih]
    · simp [List.takeWhile_cons, List.dropWhile_cons, h]

theorem holds_store_zero (b : Buffer) (l : List Char) : holds (store b 0 l) l := by
  intro j h
  simp [store, List.getElem?_eq_getElem h]

theorem holds_store_append (b : Buffer) (l d : List Char) (h : holds b l) :
    holds (store b l.length d) (l ++ d) := by
  intro j hj
  unfold store
  by_cases hlt : j < l.length
  · rw [if_pos hlt, List.getElem?_append_left hlt]
    exact h j hlt
  · have hj' : j - l.length < d.length := by
      simp only [List.length_append] at hj
      omega
    rw [if_neg hlt, List.getElem?_append_right (by omega), List.getElem?_eq_getElem hj']
    simp

theorem holds_left (b : Buffer) (l d : List Char) (h : holds b (l ++ d)) : holds b l := by
  intro j hj
  have := h j (by simp only [List.length_append]; omega)
  rwa [List.getElem?_append_left hj] at this

theorem load_from_holds (b : Buffer) (data : List Char) :
    ∀ (pre : List Char) (n : Nat), holds b (pre ++ data ++ ['\x00']) → '\x00' ∉ data →
      data.length < n → load_from b n pre.length = some data := by
  induction data with
  | nil =>
    intro pre n h _ hn
    obtain ⟨m, rfl⟩ : ∃ m, n = m + 1 := ⟨n - 1, by simp at hn; omega⟩
    have hz : b pre.length = '\x00' := by
      have := h pre.length (by simp)
      rw [List.append_assoc, List.getElem?_append_right (le_refl _)] at this
      simpa using this.symm
    simp [load_from, hz]
  | cons c cs ih =>
    intro pre n h h0 hn
    obtain ⟨m, rfl⟩ : ∃ m, n = m + 1 := ⟨n - 1, by simp at hn; omega⟩
    have hc : b pre.length = c := by
      have := h pre.length (by simp)
      rw [List.append_assoc, List.getElem?_append_right (le_refl _)] at this
      simpa using this.symm
    have hne : ¬ c = '\x00' := fun e => h0 (by simp [e])
    have hrec := ih (pre ++ [c]) m (by simpa using h) (fun hm => h0 (by simp [hm]))
      (by simp at hn; omega)
    simp only [List.length_append, List.length_singleton] at hrec
    simp [load_from, hc, hne, hrec]

theorem load_of_holds (b : Buffer) (data : List Char) (h : holds b (data ++ ['\x00']))
    (h0 : '\x00' ∉ data) (hn : data.length < BUF_SIZE) : load b = some data := by
  have := load_from_holds b data [] BUF_SIZE (by simpa using h) h0 hn
  simpa [load] using this
theorem expand_body_plain (env : CStr → Option CStr) (v : List TokenPtr) (buf : Buffer)
    (i : Nat) (token : CStr) (hv : v[i]? = some (TokenPtr.cmd token)) (hd : '$' ∉ token) :
    expand_body env (v, buf) i = some (v, buf) := by
  simp [expand_body, vector_get, hv, deref, strchr_of_not_mem token '$' hd]

theorem expand_body_dollar_at (env : CStr → Option CStr) (v : List TokenPtr) (buf : Buffer)
    (i : Nat) (token : CStr) (hv : v[i]? = some (TokenPtr.cmd token)) (hd : '$' ∈ token)
    (h0 : '\x00' ∉ token) (henv : ∀ val, env (var_name token) = some val → '\x00' ∉ val)
    (hname : (var_name token).length < 20)
    (hfit : (expansion env token).length < BUF_SIZE) :
    ∃ b, expand_body env (v, buf) i = some (v.set i TokenPtr.new_token, b) ∧
      load b = some (expansion env token) := by
  have hpre : token.take (token.takeWhile fun x => x ≠ '$').length
      = token.takeWhile fun x => x ≠ '$' := take_takeWhile_length _ _
  have hdrop : token.drop ((token.takeWhile fun x => x ≠ '$').length + 1)
      = (token.dropWhile fun x => x ≠ '$').drop 1 := by
    rw [← List.drop_drop, drop_takeWhile_length]
  have h0pre : '\x00' ∉ token.takeWhile fun x => x ≠ '$' :=
    fun hm => h0 (List.takeWhile_subset _ hm)
  have h0rest : '\x00' ∉ ((token.dropWhile fun x => x ≠ '$').drop 1).dropWhile Char.isAlphanum :=
    fun hm => h0 ((List.dropWhile_sublist _).subset
      (List.mem_of_mem_drop ((List.dropWhile_sublist _).subset hm)))
  have hexp : expansion env token
      = (token.takeWhile fun x => x ≠ '$') ++ (env (var_name token)).getD [] ++
        ((token.dropWhile fun x => x ≠ '$').drop 1).dropWhile Char.isAlphanum := rfl
  have hvar : var_name token
      = ((token.dropWhile fun x => x ≠ '$').drop 1).takeWhile Char.isAlphanum := rfl
  simp only [expand_body, vector_get, hv, deref, strchr_of_mem token '$' hd, copy_name_eq,
    hpre, hdrop, ← hvar, if_neg (not_le.mpr hname)]
  rw [hexp] at hfit ⊢
  simp only [List.length_append] at hfit
  generalize (token.takeWhile fun x => x ≠ '$') = pre at *
  generalize ((token.dropWhile fun x => x ≠ '$').drop 1).dropWhile Char.isAlphanum = rest at *
  generalize var_name token = name at *
  cases hval : env name with
  | none =>
    simp only [hval, Option.getD_none, List.length_nil, Nat.add_zero, List.append_nil] at hfit ⊢
    rw [if_neg (by omega), if_neg (by omega)]
    refine ⟨_, rfl, ?_⟩
    apply load_of_holds
    · have h1 := holds_store_append _ _ (rest ++ ['\x00']) (holds_store_zero buf pre)
      simpa using h1
    · simp only [List.mem_append]
      rintro (h | h)
      · exact h0pre h
      · exact h0rest h
    · simp only [List.length_append]
      omega
  | some val =>
    have h0val := henv _ hval
    simp only [hval, Option.getD_some] at hfit ⊢
    rw [if_neg (by omega), if_neg (by omega), if_neg (by omega)]
    refine ⟨_, rfl, ?_⟩
    apply load_of_holds
    · have h1 := holds_store_append _ _ (val ++ ['\x00']) (holds_store_zero buf pre)
      rw [← List.append_assoc] at h1
      have h2 := holds_store_append _ _ (rest ++ ['\x00']) (holds_left _ _ _ h1)
      simpa using h2
    · simp only [List.mem_append]
      rintro ((h | h) | h)
      · exact h0pre h
      · exact h0val h
      · exact h0rest h
    · simp only [List.length_append]
      omega

theorem expand_body_dollar (env : CStr → Option CStr) (v : List TokenPtr) (buf : Buffer)
    (i : Nat) (token : CStr) (hv : v[i]? = some (TokenPtr.cmd token)) (hd : '$' ∈ token)
    (h0 : '\x00' ∉ token) (henv : ∀ n val, env n = some val → '\x00' ∉ val)
    (hname : (var_name token).length < 20)
    (hfit : (expansion env token).length < BUF_SIZE) :
    ∃ b, expand_body env (v, buf) i = some (v.set i TokenPtr.new_token, b) ∧
      load b = some (expansion env token) :=
  expand_body_dollar_at env v buf i token hv hd h0 (fun val h => henv _ val h) hname hfit

theorem sample_env_no_nul : ∀ n val, sample_env n = some val → '\x00' ∉ val := by
  intro n val h
  unfold sample_env at h
  split_ifs at h <;> simp at h <;> subst h <;> decide

theorem non_space_runs_all_space (s : CStr) (h : ∀ c ∈ s, c = ' ') : non_space_runs s = [] := by
  induction s with
  | nil => exact non_space_runs_nil
  | cons c s ih =>
    have hc : c = ' ' := h c (by simp)
    subst hc
    rw [non_space_runs_space]
    exact ih fun x hx => h x (by simp [hx])

/-! ## Lemmas on the child of `execute` -/

theorem child_trace_open_failed (s : Shell) (a : List (Option CStr)) (exec_ok : Bool)
    (h : s.fout = true ∨ s.fin = true) :
    limits_applied (child s a false exec_ok) = [] ∧
    exec_argvs (child s a false exec_ok) = [] ∧
    (child s a false exec_ok).getLast? = some (Event.exit 1) := by
  unfold child child_redirect
  rcases h with h | h
  · simp [h, limits_applied, exec_argvs]
  · cases hf : s.fout <;> simp [h, limits_applied, exec_argvs]

theorem child_trace_goes_on (s : Shell) (a : List (Option CStr)) (open_ok exec_ok : Bool)
    (h : open_ok = true ∨ (s.fout = false ∧ s.fin = false)) :
    ∃ pre file argv,
      child s a open_ok exec_ok = pre ++
        [Event.setrlimit Resource.NPROC s.limits.process_limit,
         Event.setrlimit Resource.DATA s.limits.data_size_limit,
         Event.setrlimit Resource.STACK s.limits.stack_size_limit,
         Event.setrlimit Resource.NOFILE s.limits.fd_limit,
         Event.setrlimit Resource.FSIZE s.limits.file_size_limit,
         Event.setrlimit Resource.CPU s.limits.cpu_limit] ++
        Event.execvp file argv ::
          (if exec_ok then [] else [Event.perror_exec file, Event.exit 1]) ∧
      limits_applied pre = [] ∧ exec_argvs pre = [] := by
  have hgo : (child_redirect s open_ok).2 = true := by
    unfold child_redirect
    rcases h with h | ⟨h1, h2⟩
    · subst h
      cases s.fout <;> cases s.fin <;> simp
    · simp [h1, h2]
  have hpre : limits_applied (child_redirect s open_ok).1 = [] ∧
      exec_argvs (child_redirect s open_ok).1 = [] := by
    unfold child_redirect
    cases s.fout <;> cases s.fin <;> cases open_ok <;> simp [limits_applied, exec_argvs]
  refine ⟨(child_redirect s open_ok).1, a.head?.join, argv_seen a, ?_, hpre.1, hpre.2⟩
  unfold child
  simp only [hgo, if_true, child_limits, child_exec]
  cases exec_ok <;> simp
theorem digitChar_facts (d : Nat) (h : d < 10) :
    (Nat.digitChar d).isDigit = true ∧ (Nat.digitChar d).toNat - '0'.toNat = d ∧
    isspace (Nat.digitChar d) = false ∧ Nat.digitChar d ≠ '-' ∧ Nat.digitChar d ≠ '+' := by
  interval_cases d <;> decide

theorem digits_value_map (l : List Nat) (h : ∀ d ∈ l, d < 10) (acc : Nat) :
    digits_value (l.map Nat.digitChar) acc = l.foldl (fun a d => a * 10 + d) acc := by
  induction l generalizing acc with
  | nil => rfl
  | cons d l ih =>
    obtain ⟨h1, h2, _⟩ := digitChar_facts d (h d (by simp))
    simp only [List.map_cons, digits_value, h1, if_true, h2, List.foldl_cons]
    exact ih (fun x hx => h x (by simp [hx])) _

theorem foldl_digits (l : List Nat) :
    l.reverse.foldl (fun a d => a * 10 + d) 0 = Nat.ofDigits 10 l := by
  induction l with
  | nil => rfl
  | cons d l ih =>
    simp only [List.reverse_cons, List.foldl_append, List.foldl_cons, List.foldl_nil, ih,
      Nat.ofDigits_cons]
    omega

theorem digits_value_decimal (v : Nat) : digits_value (decimal v) 0 = v := by
  unfold decimal
  by_cases h0 : v = 0
  · subst h0
    decide
  · rw [if_neg h0, digits_value_map, foldl_digits, Nat.ofDigits_digits]
    intro d hd
    exact Nat.digits_lt_base (by norm_num) (List.mem_reverse.mp hd)

theorem decimal_head (v : Nat) :
    ∃ d rest, d < 10 ∧ decimal v = Nat.digitChar d :: rest := by
  unfold decimal
  by_cases h0 : v = 0
  · exact ⟨0, [], by norm_num, by rw [if_pos h0]; rfl⟩
  · rw [if_neg h0]
    have hne : (Nat.digits 10 v).reverse ≠ [] := by
      simpa using Nat.digits_ne_nil_iff_ne_zero.mpr h0
    cases hl : (Nat.digits 10 v).reverse with
    | nil => exact absurd hl hne
    | cons d rest =>
      refine ⟨d, rest.map Nat.digitChar, ?_, by simp⟩
      have : d ∈ Nat.digits 10 v := List.mem_reverse.mp (hl ▸ List.mem_cons_self d rest)
      exact Nat.digits_lt_base (by norm_num) this

theorem atoi_decimal (v : Nat) (hv : v < 2 ^ 31) : atoi (decimal v) = some (v : Int) := by
  obtain ⟨d, rest, hd, hdec⟩ := decimal_head v
  obtain ⟨_, _, hsp, hminus, hplus⟩ := digitChar_facts d hd
  have hval := digits_value_decimal v
  rw [hdec] at hval
  unfold atoi
  rw [hdec]
  have hdrop : List.dropWhile isspace (Nat.digitChar d :: rest) = Nat.digitChar d :: rest := by
    simp [List.dropWhile_cons, hsp]
  simp only [hdrop]
  have hmatch : (match Nat.digitChar d :: rest with
      | '-' :: t => (true, t)
      | '+' :: t => (false, t)
      | _ => (false, Nat.digitChar d :: rest)) = (false, Nat.digitChar d :: rest) := by
    split
    · rename_i t heq
      simp only [List.cons.injEq] at heq
      exact absurd heq.1 hminus
    · rename_i t heq
      simp only [List.cons.injEq] at heq
      exact absurd heq.1 hplus
    · rfl
  rw [hmatch]
  simp only [hval, Bool.false_eq_true, if_false]
  have h1 : -(2 : Int) ^ 31 ≤ (v : Int) := by
    have : (0 : Int) ≤ (v : Int) := Int.ofNat_nonneg v
    norm_num
    omega
  have h2 : (v : Int) < (2 : Int) ^ 31 := by
    have : (v : Int) < ((2 ^ 31 : Nat) : Int) := Int.ofNat_lt.mpr hv
    simpa using this
  rw [if_pos ⟨h1, h2⟩]

theorem to_rlim_natCast (v : Nat) (hv : v < 2 ^ 31) : to_rlim (v : Int) = v := by
  unfold to_rlim
  have h : (v : Int) % (2 : Int) ^ 64 = (v : Int) := by
    apply Int.emod_eq_of_lt (Int.ofNat_nonneg v)
    have : (v : Int) < ((2 ^ 31 : Nat) : Int) := Int.ofNat_lt.mpr hv
    norm_num at this ⊢
    omega
  rw [h]
  simp

/-! ## Lemmas on the file of a redirection -/

theorem strstr_isSome_iff (t n : CStr) : (strstr t n).isSome = true ↔ n <:+: t := by
  induction t with
  | nil =>
    unfold strstr
    by_cases h : n = []
    · simp [h]
    · simp [h]
  | cons c s ih =>
    unfold strstr
    rw [List.infix_cons_iff]
    by_cases hp : n.isPrefixOf (c :: s) = true
    · simp [hp, List.isPrefixOf_iff_prefix.mp hp]
    · have hnp : ¬ n <+: c :: s := fun h => hp (List.isPrefixOf_iff_prefix.mpr h)
      simp [hp, hnp, ih]

theorem token_effect_no_angle (s : Shell) (t : CStr) (hgt : '>' ∉ t) (hlt : '<' ∉ t) :
    (token_effect s t).file = s.file ∧ (token_effect s t).fout = s.fout ∧
    (token_effect s t).fin = s.fin ∧ (token_effect s t).append = s.append := by
  have h1 := strstr_none_of_not_mem '>' ['>'] t hgt
  have h2 := strstr_none_of_not_mem '>' [] t hgt
  have h3 := strstr_none_of_not_mem '<' [] t hlt
  unfold token_effect
  simp only [h1, h2, h3, Option.isSome_none, Bool.false_eq_true, if_false]
  split_ifs <;> exact ⟨rfl, rfl, rfl, rfl⟩

theorem foldl_token_effect_no_angle (ts : List CStr) (s : Shell)
    (h : ∀ t ∈ ts, '>' ∉ t ∧ '<' ∉ t) :
    (ts.foldl token_effect s).file = s.file ∧ (ts.foldl token_effect s).fout = s.fout ∧
    (ts.foldl token_effect s).fin = s.fin ∧ (ts.foldl token_effect s).append = s.append := by
  induction ts generalizing s with
  | nil => exact ⟨rfl, rfl, rfl, rfl⟩
  | cons t ts ih =>
    obtain ⟨a1, a2, a3, a4⟩ := token_effect_no_angle s t (h t (by simp)).1 (h t (by simp)).2
    obtain ⟨b1, b2, b3, b4⟩ := ih (token_effect s t) fun x hx => h x (by simp [hx])
    exact ⟨b1.trans a1, b2.trans a2, b3.trans a3, b4.trans a4⟩

theorem token_effect_leading_gt (s : Shell) (f : CStr)
    (h : ¬ ['>', '>'] <:+: '>' :: f) :
    (token_effect s ('>' :: f)).file = some f ∧ (token_effect s ('>' :: f)).fout = true := by
  have h1 : strstr ('>' :: f) ['>', '>'] = none := by
    cases hs : strstr ('>' :: f) ['>', '>'] with
    | none => rfl
    | some x => exact absurd ((strstr_isSome_iff _ _).mp (by simp [hs])) h
  have h2 := (strstr_singleton_isSome '>' ('>' :: f)).mpr (by simp)
  simp [token_effect, h1, h2]

theorem token_effect_leading_gtgt (s : Shell) (f : CStr) :
    (token_effect s ('>' :: '>' :: f)).file = some f ∧
    (token_effect s ('>' :: '>' :: f)).fout = true := by
  have h1 : (strstr ('>' :: '>' :: f) ['>', '>']).isSome = true := by
    simp [strstr, List.isPrefixOf]
  simp [token_effect, h1]

theorem token_effect_leading_lt (s : Shell) (f : CStr)
    (h : ¬ ['>', '>'] <:+: '<' :: f) :
    (token_effect s ('<' :: f)).file = some f := by
  have h1 : strstr ('<' :: f) ['>', '>'] = none := by
    cases hs : strstr ('<' :: f) ['>', '>'] with
    | none => rfl
    | some x => exact absurd ((strstr_isSome_iff _ _).mp (by simp [hs])) h
  have h3 := (strstr_singleton_isSome '<' ('<' :: f)).mpr (by simp)
  unfold token_effect
  simp only [h1, Option.isSome_none, Bool.false_eq_true, if_false, h3, if_true]
  split_ifs <;> simp

theorem set_redirection_on_eq (sandbox : Shell) (tokens : List CStr) :
    set_redirection_on sandbox tokens
      = (tokens.foldl token_effect
            { sandbox with tokens := tokens, file := none, fout := false, fin := false,
                           append := false, background_process := false },
          tokens.map token_slot ++ [none]) := by
  unfold set_redirection_on
  exact set_redirection_eq { sandbox with tokens := tokens }

theorem signalled_kill_shell (pids : List Int) (rest : List TeardownEvent)
    (h : signalled rest = []) : signalled (kill_loop pids ++ rest) = pids := by
  unfold signalled kill_loop at *
  rw [List.filterMap_append, h, List.append_nil, List.filterMap_map]
  induction pids with
  | nil => rfl
  | cons p ps ih => simp [List.filterMap_cons, ih]

theorem free_jobs_loop_spec (jobs : List (List CStr)) :
    signalled (free_jobs_loop jobs) = [] ∧ freed_args (free_jobs_loop jobs) = jobs.flatten := by
  induction jobs with
  | nil => exact ⟨rfl, rfl⟩
  | cons j js ih =>
    obtain ⟨i1, i2⟩ := ih
    unfold free_jobs_loop signalled freed_args at *
    simp only [List.flatMap_cons, List.filterMap_append, i1, i2, List.flatten_cons]
    constructor
    · simp [List.filterMap_map]
    · simp only [List.filterMap_map, List.filterMap_cons, List.filterMap_nil, List.append_nil]
      congr 1
      induction j with
      | nil => rfl
      | cons x xs ihx => simp [List.filterMap_cons, ihx]

theorem kill_shell_live (sandbox : Shell) :
    ∃ trace, kill_shell (ShellRef.live sandbox) = some (trace, ShellRef.freed) ∧
      signalled trace = sandbox.pids ∧
      freed_args trace = sandbox.jobs_argv.flatten := by
  obtain ⟨j1, j2⟩ := free_jobs_loop_spec sandbox.jobs_argv
  refine ⟨_, rfl, ?_, ?_⟩
  · simp only [List.append_assoc]
    apply signalled_kill_shell
    unfold signalled at j1 ⊢
    simp [List.filterMap_append, j1]
  · have hk : freed_args (kill_loop sandbox.pids) = [] := by
      unfold freed_args kill_loop
      simp [List.filterMap_map]
    unfold freed_args at j2 hk ⊢
    simp [List.filterMap_append, j2, hk]

theorem set_redirection_slot (sandbox : Shell) (i : Nat) (t : CStr)
    (hi : sandbox.tokens[i]? = some t) (hc : is_cleared t = false) :
    (set_redirection sandbox (sandbox.tokens.map some ++ [none])).2[i]? = some (some t) := by
  rw [set_redirection_eq]
  have hlt : i < sandbox.tokens.length := (List.getElem?_eq_some_iff.mp hi).1
  simp only
  rw [List.getElem?_append_left (by simpa using hlt), List.getElem?_map, hi]
  simp [token_slot_eq, hc]

theorem decimal_1024 : decimal 1024 = "1024".toList := by
  simp [decimal]
  decide

theorem execute_child_eq (sandbox : Shell) (open_ok exec_ok : Bool) :
    (execute sandbox 0 open_ok exec_ok).trace
        = child (set_redirection sandbox (sandbox.tokens.map some ++ [none])).1
            (set_redirection sandbox (sandbox.tokens.map some ++ [none])).2 open_ok exec_ok ∧
    (execute sandbox 0 open_ok exec_ok).shell
        = (set_redirection sandbox (sandbox.tokens.map some ++ [none])).1 ∧
    (set_redirection sandbox (sandbox.tokens.map some ++ [none])).1.limits = sandbox.limits := by
  refine ⟨by simp [execute], by simp [execute], ?_⟩
  rw [set_redirection_eq]
  exact (foldl_token_effect_frame sandbox.tokens _).2.2.1

theorem ampersand_inside_token_example :
    (set_redirection_on (initial_shell default_limits)
        ["cmd".toList, "a&".toList, "&&".toList]).1.background_process = false ∧
    argv_seen (set_redirection_on (initial_shell default_limits)
        ["cmd".toList, "a&".toList, "&&".toList]).2
      = ["cmd".toList, "a&".toList, "&&".toList] := by
  decide
theorem child_mem_execvp (s : Shell) (a : List (Option CStr)) (exec_ok : Bool) :
    Event.execvp a.head?.join (argv_seen a) ∈ child s a true exec_ok := by
  unfold child child_redirect child_exec
  cases s.fout <;> cases s.fin <;> cases exec_ok <;> simp

theorem execute_child_leading (sandbox : Shell) (exec_ok : Bool) (first : CStr)
    (rest : List CStr) (htokens : sandbox.tokens = first :: rest)
    (hfirst : is_cleared first = false) :
    exec_argvs (execute sandbox 0 true exec_ok).trace
      = [first :: rest.takeWhile fun t => !is_cleared t] ∧
    Event.execvp (some first) (first :: rest.takeWhile fun t => !is_cleared t)
      ∈ (execute sandbox 0 true exec_ok).trace := by
  constructor
  · rw [exec_argvs_execute_child, htokens]
    simp [List.takeWhile_cons, hfirst]
  · have hm := child_mem_execvp (set_redirection sandbox (sandbox.tokens.map some ++ [none])).1
      (set_redirection sandbox (sandbox.tokens.map some ++ [none])).2 exec_ok
    rw [← (execute_child_eq sandbox true exec_ok).1] at hm
    have h2 : (set_redirection sandbox (sandbox.tokens.map some ++ [none])).2
        = sandbox.tokens.map token_slot ++ [none] := by
      rw [set_redirection_eq]
    rw [h2, htokens] at hm
    have hs : token_slot first = some first := by
      rw [token_slot_eq, hfirst]
      simp
    have ha := argv_seen_slots (first :: rest) []
    simp only [List.map_cons, List.cons_append, hs] at ha hm
    rw [ha] at hm
    simpa [List.takeWhile_cons, hfirst] using hm

theorem takeWhile_getElem_of_all {α : Type} (p : α → Bool) (l : List α) :
    ∀ (i : Nat) (t : α), l[i]? = some t → p t = true → (∀ u ∈ l.take i, p u = true) →
      (l.takeWhile p)[i]? = some t := by
  induction l with
  | nil => intro i t h; simp at h
  | cons x xs ih =>
    intro i t h hp hall
    cases i with
    | zero =>
      simp only [List.getElem?_cons_zero, Option.some.injEq] at h
      subst h
      simp [List.takeWhile_cons, hp]
    | succ j =>
      have hx : p x = true := hall x (by simp)
      simp only [List.getElem?_cons_succ] at h
      simp only [List.takeWhile_cons, hx, if_true, List.getElem?_cons_succ]
      exact ih j t h hp fun u hu => hall u (by simp [hu])

theorem count_kill_loop (pids : List Int) (e : TeardownEvent)
    (h : ∀ pid, e ≠ TeardownEvent.kill_sigterm pid) : (kill_loop pids).count e = 0 := by
  unfold kill_loop
  rw [List.count_eq_zero]
  intro hm
  obtain ⟨pid, _, hp⟩ := List.mem_map.mp hm
  exact h pid hp.symm

theorem count_free_jobs_loop (jobs : List (List CStr)) (e : TeardownEvent)
    (h1 : ∀ arg, e ≠ TeardownEvent.free_arg arg)
    (h2 : ∀ l, e ≠ TeardownEvent.vector_free_argv_list l) :
    (free_jobs_loop jobs).count e = 0 := by
  unfold free_jobs_loop
  rw [List.count_eq_zero]
  intro hm
  obtain ⟨l, _, hl⟩ := List.mem_flatMap.mp hm
  rcases List.mem_append.mp hl with hl | hl
  · obtain ⟨arg, _, ha⟩ := List.mem_map.mp hl
    exact h1 arg ha.symm
  · simp only [List.mem_singleton] at hl
    exact h2 l hl

theorem freed_argv_lists_jobs (jobs : List (List CStr)) :
    freed_argv_lists (free_jobs_loop jobs) = jobs := by
  induction jobs with
  | nil => rfl
  | cons j js ih =>
    unfold free_jobs_loop freed_argv_lists at *
    simp only [List.flatMap_cons, List.filterMap_append, ih, List.filterMap_map,
      List.filterMap_cons, List.filterMap_nil]
    have : List.filterMap ((fun e => match e with
        | TeardownEvent.vector_free_argv_list argv_list => some argv_list
        | _ => none) ∘ TeardownEvent.free_arg) j = [] := by
      induction j with
      | nil => rfl
      | cons x xs ihx => simp [List.filterMap_cons, ihx]
    rw [this]
    rfl

/-! ## The claims -/

/-- C1, on a table of two adjacent jobs that have both exited: `show_jobs`
removes the first and, because the index moves on after the removal, never
checks the second, which stays in the table and is listed. -/
theorem show_jobs_skips_after_removal :
    show_jobs (fun _ => true)
        { initial_shell default_limits with
          pids := [101, 102]
          jobs_argv := [["sleep".toList, "1".toList], ["sleep".toList, "2".toList]] }
      = some
        ({ initial_shell default_limits with
            pids := [102]
            jobs_argv := [["sleep".toList, "2".toList]] },
          { count := 1, lines := [(102, ["sleep".toList, "2".toList])] }) := by
  decide

/-- C2 does not hold as stated: for the tokens `echo >out.txt hi` the program
receives `echo` alone, not the compacted vector `echo hi`. -/
theorem execute_does_not_compact :
    exec_argvs (execute { initial_shell default_limits with
        tokens := ["echo".toList, ">out.txt".toList, "hi".toList] } 0 true true).trace
      = [["echo".toList]] ∧
    exec_argvs (execute { initial_shell default_limits with
        tokens := ["echo".toList, ">out.txt".toList, "hi".toList] } 0 true true).trace
      ≠ [compacted ["echo".toList, ">out.txt".toList, "hi".toList]] := by
  decide

/-- C2 as amended: when the first token is not a cleared token, the child of
`execute` calls `execvp` once, with that first token as the program name, and
the argument vector it passes is the token sequence up to, not including,
its first cleared token. -/
theorem execute_passes_leading_tokens (sandbox : Shell) (exec_ok : Bool) (first : CStr)
    (rest : List CStr) (htokens : sandbox.tokens = first :: rest)
    (hfirst : is_cleared first = false) :
    exec_argvs (execute sandbox 0 true exec_ok).trace
      = [first :: rest.takeWhile fun t => !is_cleared t] ∧
    Event.execvp (some first) (first :: rest.takeWhile fun t => !is_cleared t)
      ∈ (execute sandbox 0 true exec_ok).trace :=
  execute_child_leading sandbox exec_ok first rest htokens hfirst

/-- C2 as amended, at the tokens `echo hi >out.txt`: the program `echo`
receives `echo hi`. -/
theorem execute_passes_leading_tokens_witness :
    exec_argvs (execute { initial_shell default_limits with
        tokens := ["echo".toList, "hi".toList, ">out.txt".toList] } 0 true true).trace
      = [["echo".toList, "hi".toList]] ∧
    Event.execvp (some "echo".toList) ["echo".toList, "hi".toList]
      ∈ (execute { initial_shell default_limits with
        tokens := ["echo".toList, "hi".toList, ">out.txt".toList] } 0 true true).trace :=
  execute_passes_leading_tokens
    { initial_shell default_limits with
      tokens := ["echo".toList, "hi".toList, ">out.txt".toList] }
    true "echo".toList ["hi".toList, ">out.txt".toList] rfl (by decide)

/-- C3, on the line `echo $A $B` with `A=1`, `B=2`: both expanded tokens are
stored as the address of the one array `new_token`, so both read as the
expansion written last, `2`, whatever the array held before. -/
theorem expand_two_variables_alias (new_token : Buffer) :
    expand_tokens sample_env new_token ["echo".toList, "$A".toList, "$B".toList]
      = some ["echo".toList, "2".toList, "2".toList] := by
  have h0 := expand_body_plain sample_env
    [TokenPtr.cmd "echo".toList, TokenPtr.cmd "$A".toList, TokenPtr.cmd "$B".toList]
    new_token 0 "echo".toList rfl (by decide)
  obtain ⟨b1, hb1, _⟩ := expand_body_dollar sample_env
    [TokenPtr.cmd "echo".toList, TokenPtr.cmd "$A".toList, TokenPtr.cmd "$B".toList]
    new_token 1 "$A".toList rfl (by decide) (by decide) sample_env_no_nul (by decide) (by decide)
  obtain ⟨b2, hb2, hl2⟩ := expand_body_dollar sample_env
    [TokenPtr.cmd "echo".toList, TokenPtr.new_token, TokenPtr.cmd "$B".toList]
    b1 2 "$B".toList rfl (by decide) (by decide) sample_env_no_nul (by decide) (by decide)
  have he : expansion sample_env "$B".toList = "2".toList := by decide
  rw [he] at hl2
  simp only [List.set_cons_succ, List.set_cons_zero] at hb1 hb2
  simp only [expand_tokens, expand_environment_vars, vector_size, List.map_cons, List.map_nil,
    List.length_cons, List.length_nil, List.range_succ_eq_map, List.range_zero, List.map_nil,
    List.map_cons, expand_loop, h0, hb1, hb2, Option.some_bind]
  simp [read_tokens, read_all, deref, hl2]

/-- C4: a single token that contains `$`, whose variable name is shorter than
20 characters and whose expansion fits `new_token` with its terminator, reads
after `expand_environment_vars` as the text before the first `$`, then the
value of the variable (nothing when unset), then the text after the name;
this for every environment and whatever the array held before. -/
theorem expand_single_token (env : CStr → Option CStr) (new_token : Buffer) (token : CStr)
    (hdollar : '$' ∈ token) (hnul : '\x00' ∉ token)
    (henv : ∀ name value, env name = some value → '\x00' ∉ value)
    (hname : (var_name token).length < 20)
    (hfit : (expansion env token).length < BUF_SIZE) :
    expand_tokens env new_token [token] = some [expansion env token] := by
  obtain ⟨b, hb, hl⟩ := expand_body_dollar env [TokenPtr.cmd token] new_token 0 token rfl
    hdollar hnul henv hname hfit
  simp [expand_tokens, expand_environment_vars, vector_size, expand_loop, hb, read_tokens,
    read_all, deref, hl]

/-- C4 at the token `$A$B` with `A=1`, `B=2`: only the first `$` is expanded,
the result is `1$B`. -/
theorem expand_single_token_witness :
    expand_tokens sample_env (fun _ => 'x') ["$A$B".toList] = some ["1$B".toList] :=
  expand_single_token sample_env (fun _ => 'x') "$A$B".toList (by decide) (by decide)
    sample_env_no_nul (by decide) (by decide)

/-- C5: `tokenize_string` returns, whatever the vector held before, exactly
the maximal runs of non-space characters of the line up to its newline, in
order; every token is non-empty and free of spaces; a line of spaces only (or
an empty line) gives no token. -/
theorem tokenize_string_runs (cmd : CStr) (v : List CStr) :
    tokenize_string cmd v = some (non_space_runs (cmd.takeWhile fun c => c ≠ '\n')) ∧
    (∀ t ∈ non_space_runs (cmd.takeWhile fun c => c ≠ '\n'), t ≠ [] ∧ ' ' ∉ t) ∧
    ((∀ c ∈ cmd.takeWhile fun c => c ≠ '\n', c = ' ') → tokenize_string cmd v = some []) := by
  refine ⟨tokenize_string_eq cmd v, non_space_runs_word_ok _, fun h => ?_⟩
  rw [tokenize_string_eq, non_space_runs_all_space _ h]

/-- C6: plain words followed by one redirection token `>f`, `>>f` or `<f` and
optionally by a final `&`: `set_redirection` leaves the plain words as the
argument vector, sets `file` to `f`, sets `fout` alone for `>f`, `fout` and
`append` for `>>f`, `fin` alone for `<f`, and sets `background_process`
exactly when the `&` is there; the other fields are untouched. -/
theorem set_redirection_trailing (sandbox : Shell) (words : List CStr) (mode : RedirMode)
    (f : CStr) (bg : Bool)
    (hwords : ∀ w ∈ words, '<' ∉ w ∧ '>' ∉ w ∧ w ≠ ['&']) (hf : '>' ∉ f) :
    (set_redirection
        { sandbox with tokens := words ++ [redir_token mode f] ++ (if bg then [['&']] else []) }
        ((words ++ [redir_token mode f] ++ (if bg then [['&']] else [])).map some ++ [none])).1
      = { sandbox with
          tokens := words ++ [redir_token mode f] ++ (if bg then [['&']] else [])
          file := some f
          fout := decide (mode ≠ RedirMode.read)
          append := decide (mode = RedirMode.append)
          fin := decide (mode = RedirMode.read)
          background_process := bg } ∧
    argv_seen (set_redirection
        { sandbox with tokens := words ++ [redir_token mode f] ++ (if bg then [['&']] else []) }
        ((words ++ [redir_token mode f] ++ (if bg then [['&']] else [])).map some ++ [none])).2
      = words := by
  have hplain : ∀ w ∈ words, is_cleared w = false := by
    intro w hw
    obtain ⟨h1, h2, h3⟩ := hwords w hw
    simp [is_cleared, h1, h2, h3]
  have := set_redirection_eq
    { sandbox with tokens := words ++ [redir_token mode f] ++ (if bg then [['&']] else []) }
  simp only at this
  rw [this]
  constructor
  · simp only [List.foldl_append, List.foldl_cons, List.foldl_nil]
    rw [foldl_token_effect_plain words _ hplain, token_effect_redir _ mode f hf]
    cases bg <;> cases mode <;> simp [token_effect_amp]
  · simp only [List.map_append, List.map_cons, List.map_nil, List.append_assoc]
    rw [token_slot_eq (redir_token mode f), is_cleared_redir]
    simp only [if_true, List.singleton_append]
    rw [argv_seen_slots]
    rw [List.takeWhile_eq_self_iff.mpr]
    intro w hw
    simp [hplain w hw]

/-- C6 at `cat <in.txt &`: argument vector `cat`, file `in.txt`, read mode,
background. -/
theorem set_redirection_trailing_witness :
    (set_redirection
        { initial_shell default_limits with
          tokens := ["cat".toList, "<in.txt".toList, "&".toList] }
        [some "cat".toList, some "<in.txt".toList, some "&".toList, none]).1
      = { initial_shell default_limits with
          tokens := ["cat".toList, "<in.txt".toList, "&".toList]
          file := some "in.txt".toList
          fout := false
          append := false
          fin := true
          background_process := true } ∧
    argv_seen (set_redirection
        { initial_shell default_limits with
          tokens := ["cat".toList, "<in.txt".toList, "&".toList] }
        [some "cat".toList, some "<in.txt".toList, some "&".toList, none]).2
      = ["cat".toList] :=
  set_redirection_trailing (initial_shell default_limits) ["cat".toList] RedirMode.read
    "in.txt".toList true (by decide) (by decide)

/-- C7: on a table whose two vectors have the same length, `show_jobs`
returns, keeps every record whose process has not exited, in the same order
and with its own argument vector (the records left are a sublist of the
records before), leaves the two vectors parallel, and prints as count the
number of records left, followed by exactly those records. -/
theorem show_jobs_keeps_running_jobs (exited : Int → Bool) (sandbox : Shell)
    (hlen : sandbox.pids.length = sandbox.jobs_argv.length) :
    ∃ s report, show_jobs exited sandbox = some (s, report) ∧
      (job_records s).filter (alive exited) = (job_records sandbox).filter (alive exited) ∧
      (job_records s).Sublist (job_records sandbox) ∧
      s.pids.length = s.jobs_argv.length ∧
      report.count = (job_records s).length ∧
      report.lines = job_records s := by
  obtain ⟨s, hs, h1, h2, h3⟩ :=
    show_jobs_loop_spec exited sandbox.pids.length 0 sandbox hlen (by omega)
  refine ⟨s, print_jobs s, ?_, h2, h3, h1, ?_, print_jobs_lines s h1⟩
  · simp [show_jobs, vector_size, hs]
  · simp [print_jobs, job_records, vector_size, h1]

/-- C7 at the table made by registering `sleep 5` as 101 and `sleep 1` as
102, when only 102 has exited; there the table left is exactly the record of
101 and the count is 1. -/
theorem show_jobs_keeps_running_jobs_witness :
    (∃ s report, show_jobs (fun pid => decide (pid = 102)) two_jobs = some (s, report) ∧
      (job_records s).filter (alive fun pid => decide (pid = 102))
        = (job_records two_jobs).filter (alive fun pid => decide (pid = 102)) ∧
      (job_records s).Sublist (job_records two_jobs) ∧
      s.pids.length = s.jobs_argv.length ∧
      report.count = (job_records s).length ∧
      report.lines = job_records s) ∧
    (show_jobs (fun pid => decide (pid = 102)) two_jobs).map
        (fun r => (job_records r.1, r.2.count))
      = some ([(101, ["sleep".toList, "5".toList])], 1) :=
  ⟨show_jobs_keeps_running_jobs (fun pid => decide (pid = 102)) two_jobs (by decide),
    by decide⟩

/-- C8: from the empty table, after any sequence of `execute` and `jobs`
steps made in the shell process, the loop of `main` is reached again, the two
vectors of the job table have the same length, and the pairs read index by
index are, in order, among the jobs that were registered: the process id at
an index and the argument vector at that index come from one registration. -/
theorem job_table_stays_parallel (limits : ShellLimits) (ops : List Op)
    (hparent : ∀ op ∈ ops, in_parent op = true) :
    ∃ s, run (initial_shell limits) ops = some s ∧
      s.pids.length = s.jobs_argv.length ∧
      (job_records s).Sublist (registered ops) := by
  obtain ⟨s, h1, h2, h3⟩ := run_invariant ops (initial_shell limits) rfl hparent
  exact ⟨s, h1, h2, by simpa [job_records, initial_shell, vector_new] using h3⟩

/-- C8 at the steps `sleep 5 &` (child 101), `ls` in the foreground (child
7), a failed `fork`, `sleep 1 &` (child 102), and `jobs` with 102 exited. -/
theorem job_table_stays_parallel_witness :
    ∃ s, run (initial_shell default_limits)
        [Op.execute ["sleep".toList, "5".toList, "&".toList] 101 true true,
         Op.execute ["ls".toList] 7 true true,
         Op.execute ["ls".toList, "&".toList] (-1) true true,
         Op.execute ["sleep".toList, "1".toList, "&".toList] 102 true true,
         Op.show_jobs fun pid => decide (pid = 102)] = some s ∧
      s.pids.length = s.jobs_argv.length ∧
      (job_records s).Sublist (registered
        [Op.execute ["sleep".toList, "5".toList, "&".toList] 101 true true,
         Op.execute ["ls".toList] 7 true true,
         Op.execute ["ls".toList, "&".toList] (-1) true true,
         Op.execute ["sleep".toList, "1".toList, "&".toList] 102 true true,
         Op.show_jobs fun pid => decide (pid = 102)]) :=
  job_table_stays_parallel default_limits _ (by simp [in_parent])

/-- C9, on the tokens `cmd >>a >b`: the last redirection token is `>b`, yet
the `append` flag set by `>>a` is still set afterwards, and the child opens
`b` for appending instead of truncating it. -/
theorem later_redirection_keeps_append :
    (execute { initial_shell default_limits with
        tokens := ["cmd".toList, ">>a".toList, ">b".toList] } 0 true true).shell.append = true ∧
    (execute { initial_shell default_limits with
        tokens := ["cmd".toList, ">>a".toList, ">b".toList] } 0 true true).trace.head?
      = some (Event.sys_open (some "b".toList) OpenFlags.wronly_append_creat) := by
  decide

/-- C10: when `fork` returns a child's process id and the background flag is
set, `execute` pushes that process id at the end of `pids` and, at the end of
`jobs_argv`, the very argument vector the child passes to `execvp`; the
earlier entries stay as they were, no `waitpid` is made, and `execute`
returns. -/
theorem execute_registers_background_job (sandbox : Shell) (pid : Int) (open_ok exec_ok : Bool)
    (hpid : 0 < pid)
    (hbg : (execute sandbox pid open_ok exec_ok).shell.background_process = true) :
    ∃ argv,
      (execute sandbox pid open_ok exec_ok).shell.pids = sandbox.pids ++ [pid] ∧
      (execute sandbox pid open_ok exec_ok).shell.jobs_argv = sandbox.jobs_argv ++ [argv] ∧
      exec_argvs (execute sandbox 0 true exec_ok).trace = [argv] ∧
      waited_pids (execute sandbox pid open_ok exec_ok).trace = [] ∧
      (execute sandbox pid open_ok exec_ok).returned = true := by
  obtain ⟨h1, h2, h3, h4⟩ := set_redirection_result sandbox
  refine ⟨sandbox.tokens.takeWhile fun t => !is_cleared t, ?_⟩
  have hexec := exec_argvs_execute_child sandbox exec_ok
  have hneg : ¬ pid < 0 := by omega
  have hne : pid ≠ 0 := by omega
  unfold execute at hbg ⊢
  simp only [hneg, hne, if_false] at hbg ⊢
  by_cases hb : (set_redirection sandbox (sandbox.tokens.map some ++ [none])).1.background_process
      = true
  · simp only [hb, if_true, vector_push, h1, h2, h4]
    refine ⟨trivial, trivial, ?_, rfl, trivial⟩
    simpa [execute] using hexec
  · simp only [hb, if_false] at hbg
    exact absurd hbg hb

/-- C10 at the command line `sleep 9 &` with child 103, on the table that
already holds the jobs 101 and 102 of `two_jobs`. -/
theorem execute_registers_background_job_witness :
    ∃ argv,
      (execute { two_jobs with tokens := ["sleep".toList, "9".toList, "&".toList] }
        103 true true).shell.pids = [101, 102] ++ [103] ∧
      (execute { two_jobs with tokens := ["sleep".toList, "9".toList, "&".toList] }
        103 true true).shell.jobs_argv
          = [["sleep".toList, "5".toList], ["sleep".toList, "1".toList]] ++ [argv] ∧
      exec_argvs (execute { two_jobs with tokens := ["sleep".toList, "9".toList, "&".toList] }
        0 true true).trace = [argv] ∧
      waited_pids (execute { two_jobs with tokens := ["sleep".toList, "9".toList, "&".toList] }
        103 true true).trace = [] ∧
      (execute { two_jobs with tokens := ["sleep".toList, "9".toList, "&".toList] }
        103 true true).returned = true :=
  execute_registers_background_job
    { two_jobs with tokens := ["sleep".toList, "9".toList, "&".toList] } 103 true true
    (by decide) (by decide)

/-- C11: unless `fork` returned a child's process id and the background flag
is set, `execute` leaves both vectors of the job table as they were; after a
failed `fork` its only call is the `printf` of the error, and for a
foreground command its only call is `waitpid` on that very child. -/
theorem execute_table_frame (sandbox : Shell) (pid : Int) (open_ok exec_ok : Bool)
    (h : ¬ (0 < pid ∧ (execute sandbox pid open_ok exec_ok).shell.background_process = true)) :
    (execute sandbox pid open_ok exec_ok).shell.pids = sandbox.pids ∧
    (execute sandbox pid open_ok exec_ok).shell.jobs_argv = sandbox.jobs_argv ∧
    (pid < 0 → (execute sandbox pid open_ok exec_ok).trace = [Event.printf_fork_failed]) ∧
    (0 < pid → (execute sandbox pid open_ok exec_ok).trace = [Event.waitpid pid]) := by
  obtain ⟨h1, h2, _, _⟩ := set_redirection_result sandbox
  unfold execute at h ⊢
  by_cases hneg : pid < 0
  · have hnp : ¬ 0 < pid := by omega
    simp [hneg, hnp, h1, h2]
  · by_cases hz : pid = 0
    · subst hz
      simp [h1, h2]
    · have hpos : 0 < pid := by omega
      simp only [hneg, hz, if_false, hpos, true_and] at h ⊢
      by_cases hb : (set_redirection sandbox (sandbox.tokens.map some ++ [none])).1.background_process
          = true
      · simp only [hb, if_true] at h
        exact absurd trivial h
      · simp [hb, h1, h2]

/-- C11 at the foreground command `ls` with child 7, on the table that holds
the jobs 101 and 102 of `two_jobs`. -/
theorem execute_table_frame_witness :
    (execute { two_jobs with tokens := ["ls".toList] } 7 true true).shell.pids = [101, 102] ∧
    (execute { two_jobs with tokens := ["ls".toList] } 7 true true).shell.jobs_argv
      = [["sleep".toList, "5".toList], ["sleep".toList, "1".toList]] ∧
    ((7 : Int) < 0 → (execute { two_jobs with tokens := ["ls".toList] } 7 true true).trace
      = [Event.printf_fork_failed]) ∧
    ((0 : Int) < 7 → (execute { two_jobs with tokens := ["ls".toList] } 7 true true).trace
      = [Event.waitpid 7]) :=
  execute_table_frame { two_jobs with tokens := ["ls".toList] } 7 true true (by decide)

/-- C12: without options `initialize_rlimits` gives the defaults, soft equal
to hard for each kind: 256 processes, 2^30 for data, stack, file size and CPU
time, 256 descriptors. -/
theorem initialize_rlimits_defaults :
    initialize_rlimits [] = InitResult.ok
      { process_limit := { rlim_cur := 256, rlim_max := 256 }
        data_size_limit := { rlim_cur := 2 ^ 30, rlim_max := 2 ^ 30 }
        stack_size_limit := { rlim_cur := 2 ^ 30, rlim_max := 2 ^ 30 }
        fd_limit := { rlim_cur := 256, rlim_max := 256 }
        file_size_limit := { rlim_cur := 2 ^ 30, rlim_max := 2 ^ 30 }
        cpu_limit := { rlim_cur := 2 ^ 30, rlim_max := 2 ^ 30 } } := by
  decide

/-- C13 does not hold for every numeric value: the value goes through `atoi`
into an `int` and from there into the unsigned `rlim_t`. For `-p 2147483648`
no configuration with the process limit 2147483648 results, and `-p -1`
stores 18446744073709551615. -/
theorem override_outside_int_range :
    (¬ ∃ limits, initialize_rlimits [('p', "2147483648".toList)] = InitResult.ok limits ∧
      limits.process_limit = { rlim_cur := 2147483648, rlim_max := 2147483648 }) ∧
    initialize_rlimits [('p', "-1".toList)] = InitResult.ok
      (with_limit default_limits Resource.NPROC
        { rlim_cur := 18446744073709551615, rlim_max := 18446744073709551615 }) := by
  constructor
  · rintro ⟨limits, h, _⟩
    have hu : initialize_rlimits [('p', "2147483648".toList)] = InitResult.atoi_undefined := by
      decide
    rw [hu] at h
    cases h
  · decide

/-- C13 as amended: for every limit kind and every value `v` from 0 to
2^31 - 1, given in decimal as the argument of that kind's option,
`initialize_rlimits` yields the defaults with the pair of that kind replaced
by soft = hard = `v`; the five other pairs are the default ones. -/
theorem single_override (resource : Resource) (v : Nat) (hv : v < 2 ^ 31) :
    initialize_rlimits [(option_of resource, decimal v)]
      = InitResult.ok (with_limit default_limits resource { rlim_cur := v, rlim_max := v }) ∧
    limit_of (with_limit default_limits resource { rlim_cur := v, rlim_max := v }) resource
      = { rlim_cur := v, rlim_max := v } ∧
    ∀ other, other ≠ resource →
      limit_of (with_limit default_limits resource { rlim_cur := v, rlim_max := v }) other
        = limit_of default_limits other := by
  refine ⟨?_, ?_, ?_⟩
  · unfold initialize_rlimits options_loop apply_option
    rw [atoi_decimal v hv]
    cases resource <;> simp [option_of, with_limit, to_rlim_natCast v hv, options_loop]
  · cases resource <;> rfl
  · intro other hne
    cases resource <;> cases other <;> first | rfl | exact absurd rfl hne

/-- C13 as amended, at `-n 1024`. -/
theorem single_override_witness :
    initialize_rlimits [('n', "1024".toList)]
      = InitResult.ok (with_limit default_limits Resource.NOFILE
          { rlim_cur := 1024, rlim_max := 1024 }) ∧
    limit_of (with_limit default_limits Resource.NOFILE { rlim_cur := 1024, rlim_max := 1024 })
        Resource.NOFILE
      = { rlim_cur := 1024, rlim_max := 1024 } ∧
    ∀ other, other ≠ Resource.NOFILE →
      limit_of (with_limit default_limits Resource.NOFILE
          { rlim_cur := 1024, rlim_max := 1024 }) other
        = limit_of default_limits other :=
  decimal_1024 ▸ single_override Resource.NOFILE 1024 (by norm_num)

/-- C14 does not hold as stated: in an environment where `Z` is unset (and so
is `Zb`) the token `a$Zb` expands to `a`, not to `ab`; the name read after
the `$` is the whole alphanumeric run `Zb`. -/
theorem expand_unset_not_ab :
    sample_env ['Z'] = none ∧
    expand_tokens sample_env (fun _ => 'x') ["a$Zb".toList] = some ["a".toList] ∧
    expand_tokens sample_env (fun _ => 'x') ["a$Zb".toList] ≠ some ["ab".toList] := by
  decide

/-- C14 as amended: for every environment in which the variable `Zb` is
unset, and whatever `new_token` held before, the token `a$Zb` expands to
`a`. -/
theorem expand_reads_longest_name (env : CStr → Option CStr) (new_token : Buffer)
    (hunset : env "Zb".toList = none) :
    expand_tokens env new_token ["a$Zb".toList] = some ["a".toList] := by
  have hname : var_name "a$Zb".toList = "Zb".toList := by decide
  have hexp : expansion env "a$Zb".toList = "a".toList := by
    unfold expansion
    rw [hname, hunset]
    decide
  obtain ⟨b, hb, hl⟩ := expand_body_dollar_at env [TokenPtr.cmd "a$Zb".toList] new_token 0
    "a$Zb".toList rfl (by decide) (by decide)
    (fun val h => by rw [hname, hunset] at h; cases h)
    (by rw [hname]; decide) (by rw [hexp]; decide)
  rw [hexp] at hl
  simp only [expand_tokens, expand_environment_vars, vector_size, List.map_cons, List.map_nil,
    List.length_cons, List.length_nil, List.range_succ_eq_map, List.range_zero, expand_loop, hb,
    Option.some_bind]
  simp [read_tokens, read_all, deref, hl]

/-- C14 as amended, in the sample environment and an array filled with `x`. -/
theorem expand_reads_longest_name_witness :
    expand_tokens sample_env (fun _ => 'x') ["a$Zb".toList] = some ["a".toList] :=
  expand_reads_longest_name sample_env (fun _ => 'x') (by decide)

/-- C15 does not hold as stated: after `kill_shell` no table is left, empty
or not, because the shell structure itself is released; a second call reads
released memory and has no defined result. -/
theorem teardown_leaves_no_table :
    (kill_shell (ShellRef.live two_jobs)).map Prod.snd = some ShellRef.freed ∧
    ((kill_shell (ShellRef.live two_jobs)).bind fun r => kill_shell r.2) = none := by
  decide

/-- C15 as amended: on a live shell structure `kill_shell` first sends
SIGTERM once per entry of `pids`, in table order, and to no other process;
then it releases the token vector, the vector of process ids, every string of
every job's argument vector, every job's argument vector, the vector of
jobs, the limits and, as its last call, the shell structure, each exactly
once. -/
theorem teardown_signals_each_job (sandbox : Shell) :
    ∃ trace, kill_shell (ShellRef.live sandbox) = some (trace, ShellRef.freed) ∧
      (∃ releases, trace = sandbox.pids.map TeardownEvent.kill_sigterm ++ releases ∧
        signalled releases = []) ∧
      signalled trace = sandbox.pids ∧
      freed_args trace = sandbox.jobs_argv.flatten ∧
      freed_argv_lists trace = sandbox.jobs_argv ∧
      trace.count TeardownEvent.vector_free_tokens = 1 ∧
      trace.count TeardownEvent.vector_free_pids = 1 ∧
      trace.count TeardownEvent.vector_free_jobs_argv = 1 ∧
      trace.count TeardownEvent.free_limits = 1 ∧
      trace.count TeardownEvent.free_sandbox = 1 ∧
      trace.getLast? = some TeardownEvent.free_sandbox := by
  obtain ⟨trace, h1, h2, h3⟩ := kill_shell_live sandbox
  obtain ⟨j1, _⟩ := free_jobs_loop_spec sandbox.jobs_argv
  have hcount : ∀ e : TeardownEvent, (∀ pid, e ≠ TeardownEvent.kill_sigterm pid) →
      (∀ arg, e ≠ TeardownEvent.free_arg arg) →
      (∀ l, e ≠ TeardownEvent.vector_free_argv_list l) →
      (kill_loop sandbox.pids).count e = 0 ∧ (free_jobs_loop sandbox.jobs_argv).count e = 0 :=
    fun e a b d => ⟨count_kill_loop _ e a, count_free_jobs_loop _ e b d⟩
  have hlists : freed_argv_lists (kill_loop sandbox.pids) = [] := by
    unfold freed_argv_lists kill_loop
    simp [List.filterMap_map]
  simp only [kill_shell, Option.some.injEq, Prod.mk.injEq, and_true] at h1
  subst h1
  refine ⟨_, rfl, ⟨_, by simp only [kill_loop, List.append_assoc]; rfl, ?_⟩, h2, h3, ?_, ?_, ?_,
    ?_, ?_, ?_, ?_⟩
  · unfold signalled at j1 ⊢
    simp [List.filterMap_append, j1]
  · have hj := freed_argv_lists_jobs sandbox.jobs_argv
    unfold freed_argv_lists at hj hlists ⊢
    simp [List.filterMap_append, hj, hlists]
  · obtain ⟨a, b⟩ := hcount TeardownEvent.vector_free_tokens (by simp) (by simp) (by simp)
    simp [List.count_append, a, b]
  · obtain ⟨a, b⟩ := hcount TeardownEvent.vector_free_pids (by simp) (by simp) (by simp)
    simp [List.count_append, a, b]
  · obtain ⟨a, b⟩ := hcount TeardownEvent.vector_free_jobs_argv (by simp) (by simp) (by simp)
    simp [List.count_append, a, b]
  · obtain ⟨a, b⟩ := hcount TeardownEvent.free_limits (by simp) (by simp) (by simp)
    simp [List.count_append, a, b]
  · obtain ⟨a, b⟩ := hcount TeardownEvent.free_sandbox (by simp) (by simp) (by simp)
    simp [List.count_append, a, b]
  · have hsplit : kill_loop sandbox.pids
          ++ [TeardownEvent.vector_free_tokens, TeardownEvent.vector_free_pids]
          ++ free_jobs_loop sandbox.jobs_argv
          ++ [TeardownEvent.vector_free_jobs_argv, TeardownEvent.free_limits,
              TeardownEvent.free_sandbox]
        = (kill_loop sandbox.pids
          ++ [TeardownEvent.vector_free_tokens, TeardownEvent.vector_free_pids]
          ++ free_jobs_loop sandbox.jobs_argv
          ++ [TeardownEvent.vector_free_jobs_argv, TeardownEvent.free_limits])
          ++ [TeardownEvent.free_sandbox] := by simp
    rw [hsplit, List.getLast?_concat]

/-- C16 does not hold as stated: in `cmd >f a&` the token `a&` merely
contains `&`, yet it does not stay in the argument vector; the program
receives `cmd` alone, because the vector ends at the slot cleared for `>f`. -/
theorem ampersand_token_after_redirection_dropped :
    exec_argvs (execute { initial_shell default_limits with
        tokens := ["cmd".toList, ">f".toList, "a&".toList] } 0 true true).trace
      = [["cmd".toList]] ∧
    "a&".toList ∉ ["cmd".toList] := by
  decide

/-- C16 as amended: `set_redirection` sets the background flag exactly when
some token is the one-character string `&`; a token that is not `&` and
contains neither `<` nor `>` (such as `a&` or `&&`) is not cleared from its
slot of the argument array, and when no token before it is a cleared token
it is passed to the program at its position. -/
theorem background_iff_exact_ampersand (sandbox : Shell) :
    ((set_redirection sandbox (sandbox.tokens.map some ++ [none])).1.background_process = true
      ↔ ['&'] ∈ sandbox.tokens) ∧
    ∀ (i : Nat) (t : CStr), sandbox.tokens[i]? = some t → t ≠ ['&'] → '>' ∉ t → '<' ∉ t →
      (set_redirection sandbox (sandbox.tokens.map some ++ [none])).2[i]? = some (some t) ∧
      ((∀ u ∈ sandbox.tokens.take i, is_cleared u = false) →
        ∀ exec_ok, ∃ argv,
          exec_argvs (execute sandbox 0 true exec_ok).trace = [argv] ∧ argv[i]? = some t) := by
  obtain ⟨_, _, h3, _⟩ := set_redirection_result sandbox
  refine ⟨by rw [h3]; simp, fun i t hi hne hgt hlt => ?_⟩
  have hc : is_cleared t = false := by simp [is_cleared, hne, hgt, hlt]
  refine ⟨set_redirection_slot sandbox i t hi hc, fun hall exec_ok => ?_⟩
  refine ⟨_, exec_argvs_execute_child sandbox exec_ok, ?_⟩
  exact takeWhile_getElem_of_all _ sandbox.tokens i t hi (by simp [hc])
    fun u hu => by simp [hall u hu]

/-- C17: in the child of `execute`, when a redirection is requested and
`open` fails, no limit is applied, `execvp` is never called and the last call
is `exit(1)`; when `open` succeeds or no redirection is requested, the trace
is the redirection calls, then the six `setrlimit` calls with the configured
limits, then `execvp`, followed by `perror` and `exit(1)` when `execvp`
fails. -/
theorem child_limits_between_redirect_and_exec (sandbox : Shell) (open_ok exec_ok : Bool) :
    (open_ok = false ∧ ((execute sandbox 0 open_ok exec_ok).shell.fout = true ∨
        (execute sandbox 0 open_ok exec_ok).shell.fin = true) →
      limits_applied (execute sandbox 0 open_ok exec_ok).trace = [] ∧
      exec_argvs (execute sandbox 0 open_ok exec_ok).trace = [] ∧
      (execute sandbox 0 open_ok exec_ok).trace.getLast? = some (Event.exit 1)) ∧
    (open_ok = true ∨ ((execute sandbox 0 open_ok exec_ok).shell.fout = false ∧
        (execute sandbox 0 open_ok exec_ok).shell.fin = false) →
      ∃ pre file argv,
        (execute sandbox 0 open_ok exec_ok).trace = pre ++
          [Event.setrlimit Resource.NPROC sandbox.limits.process_limit,
           Event.setrlimit Resource.DATA sandbox.limits.data_size_limit,
           Event.setrlimit Resource.STACK sandbox.limits.stack_size_limit,
           Event.setrlimit Resource.NOFILE sandbox.limits.fd_limit,
           Event.setrlimit Resource.FSIZE sandbox.limits.file_size_limit,
           Event.setrlimit Resource.CPU sandbox.limits.cpu_limit] ++
          Event.execvp file argv ::
            (if exec_ok then [] else [Event.perror_exec file, Event.exit 1]) ∧
        limits_applied pre = [] ∧ exec_argvs pre = []) := by
  obtain ⟨ht, hs, hl⟩ := execute_child_eq sandbox open_ok exec_ok
  rw [ht, hs]
  constructor
  · rintro ⟨ho, hr⟩
    subst ho
    exact child_trace_open_failed _ _ exec_ok hr
  · intro h
    have := child_trace_goes_on (set_redirection sandbox (sandbox.tokens.map some ++ [none])).1
      (set_redirection sandbox (sandbox.tokens.map some ++ [none])).2 open_ok exec_ok h
    rw [hl] at this
    exact this

/-- C18 does not hold as stated: for the token `a>b` the file is `>b`, the
token without its first character, not the text `b` after the `>`. -/
theorem file_skips_first_character :
    (set_redirection_on (initial_shell default_limits) ["a>b".toList]).1.file
      = some ">b".toList ∧
    (set_redirection_on (initial_shell default_limits) ["a>b".toList]).1.file
      ≠ some "b".toList := by
  decide

/-- C18 as amended: when the token starts with its operator, the file is the
text after the operator: a token `>f` without `>>` gives the output file `f`,
a token `>>f` gives the output file `f`, a token `<f` without `>>` gives the
file `f`; this for the last redirection token of any token sequence. -/
theorem file_follows_leading_operator (sandbox : Shell) (before after : List CStr) (f : CStr)
    (hafter : ∀ t ∈ after, '>' ∉ t ∧ '<' ∉ t) :
    (¬ ['>', '>'] <:+: '>' :: f →
      (set_redirection_on sandbox (before ++ ['>' :: f] ++ after)).1.file = some f ∧
      (set_redirection_on sandbox (before ++ ['>' :: f] ++ after)).1.fout = true) ∧
    ((set_redirection_on sandbox (before ++ ['>' :: '>' :: f] ++ after)).1.file = some f ∧
      (set_redirection_on sandbox (before ++ ['>' :: '>' :: f] ++ after)).1.fout = true) ∧
    (¬ ['>', '>'] <:+: '<' :: f →
      (set_redirection_on sandbox (before ++ ['<' :: f] ++ after)).1.file = some f) := by
  refine ⟨fun h => ?_, ?_, fun h => ?_⟩
  · rw [set_redirection_on_eq]
    simp only [List.foldl_append, List.foldl_cons, List.foldl_nil]
    obtain ⟨a1, a2, _, _⟩ := foldl_token_effect_no_angle after
      (token_effect (List.foldl token_effect _ before) ('>' :: f)) hafter
    obtain ⟨b1, b2⟩ := token_effect_leading_gt (List.foldl token_effect _ before) f h
    exact ⟨a1.trans b1, a2.trans b2⟩
  · rw [set_redirection_on_eq]
    simp only [List.foldl_append, List.foldl_cons, List.foldl_nil]
    obtain ⟨a1, a2, _, _⟩ := foldl_token_effect_no_angle after
      (token_effect (List.foldl token_effect _ before) ('>' :: '>' :: f)) hafter
    obtain ⟨b1, b2⟩ := token_effect_leading_gtgt (List.foldl token_effect _ before) f
    exact ⟨a1.trans b1, a2.trans b2⟩
  · rw [set_redirection_on_eq]
    simp only [List.foldl_append, List.foldl_cons, List.foldl_nil]
    obtain ⟨a1, _, _, _⟩ := foldl_token_effect_no_angle after
      (token_effect (List.foldl token_effect _ before) ('<' :: f)) hafter
    exact a1.trans (token_effect_leading_lt (List.foldl token_effect _ before) f h)

/-- C18 as amended, at `echo hi` followed by the redirection token and a
final `&`, with the file name `out.txt`. -/
theorem file_follows_leading_operator_witness :
    (¬ ['>', '>'] <:+: '>' :: "out.txt".toList →
      (set_redirection_on (initial_shell default_limits)
        (["echo".toList, "hi".toList] ++ ['>' :: "out.txt".toList] ++ [['&']])).1.file
          = some "out.txt".toList ∧
      (set_redirection_on (initial_shell default_limits)
        (["echo".toList, "hi".toList] ++ ['>' :: "out.txt".toList] ++ [['&']])).1.fout = true) ∧
    ((set_redirection_on (initial_shell default_limits)
        (["echo".toList, "hi".toList] ++ ['>' :: '>' :: "out.txt".toList] ++ [['&']])).1.file
          = some "out.txt".toList ∧
      (set_redirection_on (initial_shell default_limits)
        (["echo".toList, "hi".toList] ++ ['>' :: '>' :: "out.txt".toList] ++ [['&']])).1.fout
          = true) ∧
    (¬ ['>', '>'] <:+: '<' :: "out.txt".toList →
      (set_redirection_on (initial_shell default_limits)
        (["echo".toList, "hi".toList] ++ ['<' :: "out.txt".toList] ++ [['&']])).1.file
          = some "out.txt".toList) :=
  file_follows_leading_operator (initial_shell default_limits) ["echo".toList, "hi".toList]
    [['&']] "out.txt".toList (by decide)

/-- C19, on the tokens `cat >out <in`: `>out` sets `fout`, `<in` then
overwrites `file` with `in` and leaves `fout` set, so the one file the child
opens is `in`, named by the input-redirection token, and it opens it for
writing with truncation. -/
theorem input_file_opened_for_writing :
    files_opened (execute { initial_shell default_limits with
        tokens := ["cat".toList, ">out".toList, "<in".toList] } 0 true true).trace
      = [(some "in".toList, OpenFlags.wronly_trunc_creat)] ∧
    is_write OpenFlags.wronly_trunc_creat = true := by
  decide

/-- C20, on the token sequences `>out echo` and `&`: slot 0 of the argument
array is NULL after `set_redirection`, so the child calls `execvp` with a
NULL program name and an empty argument vector, and for `&` the parent
registers a job record whose argument vector is empty. -/
theorem program_name_cleared :
    (execute { initial_shell default_limits with
        tokens := [">out".toList, "echo".toList] } 0 true true).trace.getLast?
      = some (Event.execvp none []) ∧
    (execute { initial_shell default_limits with
        tokens := ["&".toList] } 0 true true).trace.getLast?
      = some (Event.execvp none []) ∧
    job_records (execute { initial_shell default_limits with
        tokens := ["&".toList] } 5 true true).shell = [(5, [])] := by
  decide

end Sandbox
